import Mathlib

set_option autoImplicit false

/-!
Verification development for the NASA Space Biology knowledge-graph core
(scripts/build_knowledge_graph.py and the graph endpoints of app.py).

The Python code stores the graph in a networkx MultiDiGraph.  We embed the
store shallowly: a graph is a list of nodes in insertion order (a node is an
id paired with its attribute dictionary, "none" for the attribute-less stub
nodes that MultiDiGraph.add_edge creates for absent endpoints) together with
the list of edges in insertion order.  networkx iteration orders (adjacency
grouped by first-seen target) are modelled explicitly.  Python strings are
Lean strings; str.replace with one-character patterns, str.lower and
str.strip are translated character-by-character over the underlying
character list so that the kernel can evaluate them.  Floats never leave
the literal 1.0 in this program except in the clustering average, so
numeric weights are modelled as rationals.
-/

namespace NasaKG

/-- Python s.lower(), character by character (all names in this dataset are
ASCII, where Char.toLower agrees with str.lower). -/
def pyLower (s : String) : String := ⟨s.data.map Char.toLower⟩

/-- Python s.replace(c, r) for a one-character pattern c: every occurrence
of c is replaced by the character list r. -/
def pyReplaceChar (c : Char) (r : List Char) (s : String) : String :=
  ⟨s.data.flatMap (fun x => if x = c then r else [x])⟩

/-- Python s.strip(): drop whitespace from both ends. -/
def pyStrip (s : String) : String :=
  ⟨((s.data.dropWhile Char.isWhitespace).reverse.dropWhile Char.isWhitespace).reverse⟩

/-- The test "not author or author.strip() == ''" used to skip blank
entity names. -/
def isBlankName (s : String) : Bool := s == "" || pyStrip s == ""

/-- The id normalization applied at every entity-id construction site:
name.replace(' ', '_').replace(',', '').lower(). -/
def normalize (s : String) : String :=
  pyLower (pyReplaceChar ',' [] (pyReplaceChar ' ' ['_'] s))

/-- f"author_{author.replace(' ', '_').replace(',', '').lower()}" -/
def authorIdOf (name : String) : String := "author_" ++ normalize name

/-- f"journal_{journal.replace(' ', '_').replace(',', '').lower()}" -/
def journalIdOf (name : String) : String := "journal_" ++ normalize name

/-- f"theme_{theme.replace(' ', '_').replace(',', '').lower()}" -/
def themeIdOf (name : String) : String := "theme_" ++ normalize name

/-- f"keyword_{keyword.replace(' ', '_').replace(',', '').lower()}" -/
def keywordIdOf (name : String) : String := "keyword_" ++ normalize name

/-- f"pub_{pub_data['index']}" (indices come from enumerate, hence Nat). -/
def pubIdOf (idx : Nat) : String := "pub_" ++ toString idx

/-- A Python value stored in a properties dictionary: a string or None.
Only these two shapes occur in the graph code. -/
inductive PVal where
  | str (s : String)
  | null
deriving DecidableEq, Repr

/-- The attribute dictionary a node receives from NASAKnowledgeGraph.add_node:
label, node_type, properties, weight. -/
structure NodeData where
  label : String
  node_type : String
  properties : List (String × PVal)
  weight : ℚ
deriving DecidableEq, Repr

/-- An edge together with the attribute dictionary given to it by
NASAKnowledgeGraph.add_edge: relationship_type, weight, properties. -/
structure Edge where
  source : String
  target : String
  relationship_type : String
  weight : ℚ
  properties : List (String × PVal)
deriving DecidableEq, Repr

/-- The MultiDiGraph state: nodes in insertion order (attribute dictionary
present for add_node-created nodes, absent for the stubs silently created
by add_edge) and edges in insertion order.  The node_index / edge_index
caches of the Python class mirror this content and are not modelled. -/
structure KG where
  nodes : List (String × Option NodeData)
  edges : List Edge
deriving DecidableEq, Repr

def KG.empty : KG := ⟨[], []⟩

def KG.nodeIds (g : KG) : List String := g.nodes.map Prod.fst

/-- Attribute lookup node[1].get('node_type') == t: False when the node is
absent or is an attribute-less stub (None == t is False in Python). -/
def typeIs (d : Option NodeData) (t : String) : Bool :=
  match d with
  | some nd => nd.node_type == t
  | none => false

/-- NASAKnowledgeGraph.add_node: networkx inserts the node or, if the id is
already present, overwrites its attribute dictionary in place. -/
def KG.add_node (g : KG) (i : String) (d : NodeData) : KG :=
  if i ∈ g.nodeIds then
    { g with nodes := g.nodes.map (fun p => if p.1 == i then (p.1, some d) else p) }
  else
    { g with nodes := g.nodes ++ [(i, some d)] }

/-- NASAKnowledgeGraph.add_edge: networkx MultiDiGraph.add_edge appends the
edge and silently creates a stub node for any endpoint id that is absent
(source first, then target).  It never fails. -/
def KG.add_edge (g : KG) (e : Edge) : KG :=
  let ns1 := if e.source ∈ g.nodeIds then g.nodes else g.nodes ++ [(e.source, none)]
  let ns2 := if e.target ∈ ns1.map Prod.fst then ns1 else ns1 ++ [(e.target, none)]
  { nodes := ns2, edges := g.edges ++ [e] }

/-- Out-edges of u in insertion order (the underlying multiset of
graph.edges(u, ...)). -/
def KG.outEdges (g : KG) (u : String) : List Edge :=
  g.edges.filter (fun e => e.source == u)

/-- networkx adjacency iteration order: edges grouped by first-seen target
(adj[u] is a dict keyed by target, each holding its parallel edges in key
order).  Written with explicit fuel so that the kernel can evaluate it. -/
def adjOrderFuel : Nat → List Edge → List Edge
  | 0, _ => []
  | _, [] => []
  | n + 1, e :: es =>
    e :: (es.filter (fun x => x.target == e.target) ++
      adjOrderFuel n (es.filter (fun x => x.target != e.target)))

def adjOrder (es : List Edge) : List Edge := adjOrderFuel es.length es

/-- graph.edges(u, data=True): out-edges of u in adjacency order. -/
def KG.edgesFrom (g : KG) (u : String) : List Edge := adjOrder (g.outEdges u)

/-- graph.edges(data=True): for each node in insertion order, its out-edges
in adjacency order. -/
def KG.allEdges (g : KG) : List Edge :=
  g.nodes.flatMap (fun p => adjOrder (g.outEdges p.1))

/-- graph.neighbors(u): distinct successors in adjacency order. -/
def KG.neighbors (g : KG) (u : String) : List String :=
  ((g.outEdges u).map (fun e => e.target)).eraseDups

/-- One publication record from the ingestion contract.  The absent/None
cases of the optional fields are folded into the defaults the code applies
(authors/keywords None becomes [], text fields default to the empty
string); journal and theme keep their Option so that Python truthiness can
be modelled, and doi/publication_date keep theirs because None is stored
in the node properties. -/
structure PubRecord where
  index : Nat
  title : String
  authors : List String := []
  journal : Option String := none
  theme : Option String := none
  keywords : List String := []
  abstract : String := ""
  summary : String := ""
  impact : String := ""
  doi : Option String := none
  publication_date : Option String := none
  url : String := ""
  original_title : String := ""
deriving DecidableEq, Repr

/-- Python truthiness of an optional string: None and "" are falsy. -/
def strTruthy (s : Option String) : Bool :=
  match s with
  | none => false
  | some v => v != ""

def optVal (s : Option String) : PVal :=
  match s with
  | none => PVal.null
  | some v => PVal.str v

/-- The display label of a publication: the title, truncated to 100
characters with an ellipsis marker when longer. -/
def pubLabel (title : String) : String :=
  if 100 < title.data.length then ⟨title.data.take 100⟩ ++ "..." else title

/-- The properties dictionary of a publication node. -/
def pubProps (r : PubRecord) : List (String × PVal) :=
  [("title", PVal.str r.title), ("abstract", PVal.str r.abstract),
   ("summary", PVal.str r.summary), ("impact", PVal.str r.impact),
   ("doi", optVal r.doi), ("publication_date", optVal r.publication_date),
   ("url", PVal.str r.url), ("original_title", PVal.str r.original_title)]

/-- Builder state: the graph plus the authors_seen / journals_seen /
themes_seen / keywords_seen dedup sets (modelled as insertion-ordered
lists). -/
structure BuildSt where
  g : KG
  authors_seen : List String := []
  journals_seen : List String := []
  themes_seen : List String := []
  keywords_seen : List String := []
deriving DecidableEq, Repr

/-- The author loop body of build_from_publications: skip blank names,
create the author node on first sight, always add the authored_by edge. -/
def processAuthor (pid : String) (st : BuildSt) (author : String) : BuildSt :=
  if isBlankName author then st
  else
    let aid := authorIdOf author
    let st1 :=
      if aid ∈ st.authors_seen then st
      else { st with
              g := st.g.add_node aid ⟨author, "author", [("name", PVal.str author)], 1⟩,
              authors_seen := st.authors_seen ++ [aid] }
    { st1 with g := st1.g.add_edge ⟨pid, aid, "authored_by", 1, []⟩ }

/-- The journal branch of build_from_publications. -/
def processJournal (pid : String) (st : BuildSt) (journal : Option String) : BuildSt :=
  if strTruthy journal then
    let j := journal.getD ""
    let jid := journalIdOf j
    let st1 :=
      if jid ∈ st.journals_seen then st
      else { st with
              g := st.g.add_node jid ⟨j, "journal", [("name", PVal.str j)], 1⟩,
              journals_seen := st.journals_seen ++ [jid] }
    { st1 with g := st1.g.add_edge ⟨pid, jid, "published_in", 1, []⟩ }
  else st

/-- The theme branch of build_from_publications. -/
def processTheme (pid : String) (st : BuildSt) (theme : Option String) : BuildSt :=
  if strTruthy theme then
    let t := theme.getD ""
    let tid := themeIdOf t
    let st1 :=
      if tid ∈ st.themes_seen then st
      else { st with
              g := st.g.add_node tid ⟨t, "theme", [("name", PVal.str t)], 1⟩,
              themes_seen := st.themes_seen ++ [tid] }
    { st1 with g := st1.g.add_edge ⟨pid, tid, "has_theme", 1, []⟩ }
  else st

/-- The keyword loop body of build_from_publications. -/
def processKeyword (pid : String) (st : BuildSt) (keyword : String) : BuildSt :=
  if isBlankName keyword then st
  else
    let kid := keywordIdOf keyword
    let st1 :=
      if kid ∈ st.keywords_seen then st
      else { st with
              g := st.g.add_node kid ⟨keyword, "keyword", [("name", PVal.str keyword)], 1⟩,
              keywords_seen := st.keywords_seen ++ [kid] }
    { st1 with g := st1.g.add_edge ⟨pid, kid, "has_keyword", 1, []⟩ }

/-- Processing of one publication record: publication node, author loop,
journal, theme, keyword loop. -/
def processRecord (st : BuildSt) (r : PubRecord) : BuildSt :=
  let pid := pubIdOf r.index
  let st1 := { st with
                g := st.g.add_node pid ⟨pubLabel r.title, "publication", pubProps r, 1⟩ }
  let st2 := r.authors.foldl (processAuthor pid) st1
  let st3 := processJournal pid st2 r.journal
  let st4 := processTheme pid st3 r.theme
  r.keywords.foldl (processKeyword pid) st4

/-- The record loop of build_from_publications (everything before the
co-authorship pass). -/
def phase1 (recs : List PubRecord) : KG :=
  (recs.foldl processRecord ⟨KG.empty, [], [], [], []⟩).g

/-- All ordered pairs (l[i], l[j]) with i < j, in the nested-loop order of
_add_co_authorship_relationships. -/
def pairsOf {α : Type} : List α → List (α × α)
  | [] => []
  | a :: rest => rest.map (fun b => (a, b)) ++ pairsOf rest

/-- The authors of a publication as read back from the graph: targets of
the authored_by out-edges of pub_id, in graph.edges(pub_id, data=True)
iteration order. -/
def authorsOfPub (g : KG) (pid : String) : List String :=
  ((g.edgesFrom pid).filter (fun e => e.relationship_type == "authored_by")).map
    (fun e => e.target)

def mkCoEdge (p : String × String) : Edge := ⟨p.1, p.2, "co_authors", 1, []⟩

/-- _add_co_authorship_relationships: the publication list is computed
up-front; for each publication the author list is read from the current
graph and one co_authors edge is added per ordered pair i < j. -/
def addCoAuthorship (g : KG) : KG :=
  let pubs := (g.nodes.filter (fun p => typeIs p.2 "publication")).map Prod.fst
  pubs.foldl
    (fun acc pid =>
      (pairsOf (authorsOfPub acc pid)).foldl (fun h pr => h.add_edge (mkCoEdge pr)) acc)
    g

/-- build_from_publications, up to the graph it constructs (the statistics
it also stores are modelled separately by _calculate_statistics). -/
def build_from_publications (recs : List PubRecord) : KG :=
  addCoAuthorship (phase1 recs)

/-- A Python dictionary key as it occurs in a MultiDiGraph edge atlas
lookup: the atlas g[u][v] is keyed by the integer edge keys 0, 1, ...,
while get_author_collaboration_network looks up the string key
'relationship_type' in it. -/
inductive PyKey where
  | pint (n : Nat)
  | pstr (s : String)
deriving DecidableEq, Repr

/-- The keyed edge atlas g[u][v] of the MultiDiGraph: the parallel edges
from u to v, keyed by their auto-assigned integer keys 0, 1, ... -/
def KG.edgeKeyAtlas (g : KG) (u v : String) : List (PyKey × Edge) :=
  ((g.edges.filter (fun e => e.source == u && e.target == v)).enum).map
    (fun p => (PyKey.pint p.1, p.2))

/-- self.graph[node][neighbor].get('relationship_type'): a dict.get of the
string key 'relationship_type' in the integer-keyed atlas. -/
def relTypeLookup (g : KG) (u v : String) : Option Edge :=
  ((g.edgeKeyAtlas u v).find? (fun kv => kv.1 == PyKey.pstr "relationship_type")).map
    (fun kv => kv.2)

/-- The test self.graph[node][neighbor].get('relationship_type') ==
'co_authors' of get_author_collaboration_network.  In Python the left side
is either None (key absent) or an edge attribute dictionary (key present);
None == 'co_authors' is False and dict == str is False, so both branches
compare unequal to the string. -/
def relCheck (g : KG) (u v : String) : Bool :=
  match relTypeLookup g u v with
  | none => false
  | some _ => false

/-- Python set.add on an insertion-ordered list model of a set. -/
def setAdd (l : List String) (x : String) : List String :=
  if x ∈ l then l else l ++ [x]

/-- State of the traversal in get_author_collaboration_network: visited,
the level being built (next_level during a round, current_level between
rounds), and the accumulated result node set and edge list. -/
structure BfsSt where
  visited : List String
  level : List String
  result_nodes : List String
  result_edges : List (String × String)
deriving DecidableEq, Repr

/-- The body of "for neighbor in self.graph.neighbors(node)": when the
relationship-type test succeeds the neighbor joins next_level and
result_nodes and the traversed pair joins result_edges. -/
def collabNbrStep (g : KG) (node : String) (acc : BfsSt) (nb : String) : BfsSt :=
  if relCheck g node nb then
    { acc with
        level := setAdd acc.level nb,
        result_nodes := setAdd acc.result_nodes nb,
        result_edges := acc.result_edges ++ [(node, nb)] }
  else acc

/-- The body of "for node in current_level" in
get_author_collaboration_network: skip visited nodes, mark the node
visited, and run the neighbor loop. -/
def collabVisit (g : KG) (st : BfsSt) (node : String) : BfsSt :=
  if node ∈ st.visited then st
  else
    (g.neighbors node).foldl (collabNbrStep g node)
      { st with visited := st.visited ++ [node] }

/-- One round of the depth loop: iterate over the snapshot of
current_level while accumulating next_level from an empty set. -/
def collabRound (g : KG) (st : BfsSt) : BfsSt :=
  st.level.foldl (collabVisit g) { st with level := [] }

def collabRounds (g : KG) : Nat → BfsSt → BfsSt
  | 0, st => st
  | n + 1, st => collabRounds g n (collabRound g st)

structure CollabResult where
  nodes : List String
  edges : List (String × String)
  author_name : String
deriving DecidableEq, Repr

/-- get_author_collaboration_network: normalize the author name, return
None when the author node is absent, otherwise run the depth-bounded
rounds starting from the author node. -/
def get_author_collaboration_network (g : KG) (author_name : String) (depth : Nat) :
    Option CollabResult :=
  let author_id := authorIdOf author_name
  if author_id ∈ g.nodeIds then
    let stF := collabRounds g depth ⟨[], [author_id], [author_id], []⟩
    some ⟨stF.result_nodes, stF.result_edges, author_name⟩
  else none

/-- defaultdict(int) increment co_occurrence_count[k] += 1 on an
insertion-ordered association list. -/
def bump (acc : List (String × Nat)) (k : String) : List (String × Nat) :=
  if acc.any (fun kv => kv.1 == k) then
    acc.map (fun kv => if kv.1 == k then (kv.1, kv.2 + 1) else kv)
  else acc ++ [(k, 1)]

structure KwResult where
  keyword : String
  co_occurring_keywords : List (String × Nat)
  total_publications : Nat
deriving DecidableEq, Repr

/-- get_keyword_co_occurrence: sources of has_keyword edges into the
keyword id, then a tally of every other keyword attached to those
publications, filtered by the minimum co-occurrence count. -/
def get_keyword_co_occurrence (g : KG) (keyword : String) (min_co_occurrence : Nat) :
    Option KwResult :=
  let keyword_id := keywordIdOf keyword
  if keyword_id ∈ g.nodeIds then
    let publications_with_keyword :=
      (g.allEdges.filter
        (fun e => e.relationship_type == "has_keyword" && e.target == keyword_id)).map
        (fun e => e.source)
    let co_occurrence_count :=
      publications_with_keyword.foldl
        (fun acc pid =>
          ((g.edgesFrom pid).filter
            (fun e => e.relationship_type == "has_keyword" && e.target != keyword_id)).foldl
            (fun acc2 e => bump acc2 e.target) acc)
        []
    some ⟨keyword,
      co_occurrence_count.filter (fun kv => min_co_occurrence ≤ kv.2),
      publications_with_keyword.length⟩
  else none

def getLabel (d : Option NodeData) : String :=
  match d with
  | some nd => nd.label
  | none => ""

def getType (d : Option NodeData) : String :=
  match d with
  | some nd => nd.node_type
  | none => ""

def getProps (d : Option NodeData) : List (String × PVal) :=
  match d with
  | some nd => nd.properties
  | none => []

def getWeight (d : Option NodeData) : ℚ :=
  match d with
  | some nd => nd.weight
  | none => 1

/-- One entry of the exported nodes array: {id, label, type, properties,
weight}, with the .get defaults of export_to_json. -/
structure NodeRec where
  id : String
  label : String
  type : String
  properties : List (String × PVal)
  weight : ℚ
deriving DecidableEq, Repr

/-- The nodes array of export_to_json, in node iteration order. -/
def exportNodes (g : KG) : List NodeRec :=
  g.nodes.map (fun p => ⟨p.1, getLabel p.2, getType p.2, getProps p.2, getWeight p.2⟩)

/-- export_to_json, restricted to the graph content: the nodes array and
the edges array (in graph.edges(data=True) order).  An exported edge entry
{source, target, relationship_type, weight, properties} carries exactly
the fields of Edge, so the edges array is a list of Edge.  The statistics
object is also written to the document but is carried through load
verbatim and modelled separately. -/
def export_to_json (g : KG) : List NodeRec × List Edge :=
  (exportNodes g, g.allEdges)

/-- load_knowledge_graph of app.py: rebuild a fresh graph by add_node over
the nodes array and then add_edge over the edges array. -/
def load_knowledge_graph (nodes : List NodeRec) (edges : List Edge) : KG :=
  let g1 := nodes.foldl
    (fun g nr => g.add_node nr.id ⟨nr.label, nr.type, nr.properties, nr.weight⟩)
    KG.empty
  edges.foldl (fun g e => g.add_edge e) g1

/-- One breadth-first expansion step over an adjacency function: keep the
ball and append the newly reached nodes (deduplicated, insertion order). -/
def ballStep (adj : String → List String) (cur : List String) : List String :=
  cur ++ ((cur.flatMap adj).filter (fun x => !cur.contains x)).eraseDups

def ballIter (adj : String → List String) : Nat → List String → List String
  | 0, cur => cur
  | n + 1, cur => ballIter adj n (ballStep adj cur)

/-- Nodes within n breadth-first steps of u over an adjacency function. -/
def reachFrom (adj : String → List String) (fuel : Nat) (u : String) : List String :=
  ballIter adj fuel [u]

/-- Counter(keys): a dict of first-occurrence-ordered counts. -/
def counterOf (keys : List String) : List (String × Nat) := keys.foldl bump []

/-- data.get('node_type', 'unknown') as used by the node-type Counter. -/
def getTypeUnknown (d : Option NodeData) : String :=
  match d with
  | some nd => nd.node_type
  | none => "unknown"

/-- Stable insertion into a descending-by-key sorted list, placing the new
element before the first element with a key not larger than its own;
together with sortByDesc this models Python sorted(..., reverse=True),
which is stable. -/
def insertByDesc {α : Type} (key : α → Nat) (x : α) : List α → List α
  | [] => [x]
  | y :: ys => if key x < key y then y :: insertByDesc key x ys else x :: y :: ys

def sortByDesc {α : Type} (key : α → Nat) (l : List α) : List α :=
  l.foldr (insertByDesc key) []

/-- _get_most_connected_authors: each co_authors edge counts once toward
both endpoints; top 10 by count, descending. -/
def most_connected_authors (g : KG) : List (String × Nat) :=
  let conns := g.allEdges.foldl
    (fun acc e =>
      if e.relationship_type == "co_authors" then bump (bump acc e.source) e.target
      else acc)
    []
  (sortByDesc (fun kv => kv.2) conns).take 10

/-- _get_most_productive_journals: incoming published_in edges per
journal; top 10 descending. -/
def most_productive_journals (g : KG) : List (String × Nat) :=
  let jp := g.allEdges.foldl
    (fun acc e => if e.relationship_type == "published_in" then bump acc e.target else acc)
    []
  (sortByDesc (fun kv => kv.2) jp).take 10

/-- _get_theme_distribution: has_theme targets counted and sorted
descending. -/
def theme_distribution (g : KG) : List (String × Nat) :=
  let tc := g.allEdges.foldl
    (fun acc e => if e.relationship_type == "has_theme" then bump acc e.target else acc)
    []
  sortByDesc (fun kv => kv.2) tc

def authorNodeIds (g : KG) : List String :=
  (g.nodes.filter (fun p => typeIs p.2 "author")).map Prod.fst

/-- The edges of the induced subgraph on a node-id set (a MultiDiGraph
subgraph view keeps every edge whose two endpoints are both selected). -/
def inducedEdges (g : KG) (ids : List String) : List Edge :=
  g.edges.filter (fun e => ids.contains e.source && ids.contains e.target)

/-- The edges_to_remove list computed by _get_collaboration_stats: the
non-co_authors edges of the author subgraph (as source/target pairs). -/
def edgesToRemove (g : KG) : List (String × String) :=
  ((inducedEdges g (authorNodeIds g)).filter
    (fun e => e.relationship_type != "co_authors")).map (fun e => (e.source, e.target))

/-- nx.Graph(view.to_undirected()): collapse direction and parallel edges
into a list of unordered pairs (self-loops kept), first-seen order. -/
def simpleUndirectedPairs (es : List Edge) : List (String × String) :=
  es.foldl
    (fun acc e =>
      if acc.any (fun p =>
            (p.1 == e.source && p.2 == e.target) || (p.1 == e.target && p.2 == e.source))
      then acc else acc ++ [(e.source, e.target)])
    []

/-- Neighbors of u in the simple undirected graph. -/
def simpleAdj (pairs : List (String × String)) (u : String) : List String :=
  (pairs.filterMap
    (fun p =>
      if p.1 == u then some p.2 else if p.2 == u then some p.1 else none)).eraseDups

def hasPair (pairs : List (String × String)) (a b : String) : Bool :=
  pairs.any (fun q => (q.1 == a && q.2 == b) || (q.1 == b && q.2 == a))

/-- nx.number_connected_components: count one representative per
undirected component (breadth-first reach with |V| fuel saturates any
component). -/
def componentsCount (adj : String → List String) (fuel : Nat) (V : List String) : Nat :=
  (V.foldl
    (fun (p : Nat × List String) u =>
      if p.2.contains u then p else (p.1 + 1, p.2 ++ reachFrom adj fuel u))
    (0, [])).1

/-- len(max(nx.connected_components(...), key=len)) under the
number_of_nodes() > 0 guard of _get_collaboration_stats. -/
def largestComponentSize (adj : String → List String) (V : List String) : Nat :=
  if V.isEmpty then 0
  else (V.map (fun u => (reachFrom adj V.length u).length)).foldl max 0

/-- The networkx local clustering coefficient of u in a simple undirected
graph: 2 * links-among-neighbors / (d * (d - 1)), zero when the degree is
below two. -/
def localClustering (pairs : List (String × String)) (u : String) : ℚ :=
  let nbrs := (simpleAdj pairs u).filter (fun v => v != u)
  let d := nbrs.length
  if d < 2 then 0
  else (2 * ((pairsOf nbrs).countP (fun p => hasPair pairs p.1 p.2)) : ℚ) / (d * (d - 1))

/-- nx.average_clustering under the number_of_nodes() > 0 guard. -/
def averageClustering (pairs : List (String × String)) (V : List String) : ℚ :=
  if 0 < V.length then ((V.map (localClustering pairs)).sum) / V.length else 0

structure CollabStats where
  total_authors : Nat
  connected_components : Nat
  largest_component_size : Nat
  average_clustering : ℚ
deriving DecidableEq, Repr

/-- _get_collaboration_stats.  The author subgraph is a frozen networkx
view, so the remove_edge call in the cleanup loop raises as soon as
edges_to_remove is nonempty; that failure is modelled as none.  When the
list is empty (the only case a built graph ever produces, see the C10
theorem) the statistics of the co_authors author subgraph are returned. -/
def _get_collaboration_stats (g : KG) : Option CollabStats :=
  let ids := authorNodeIds g
  let sub := inducedEdges g ids
  if (edgesToRemove g).isEmpty then
    let pairs := simpleUndirectedPairs sub
    let adj := simpleAdj pairs
    some ⟨ids.length, componentsCount adj ids.length ids,
      largestComponentSize adj ids, averageClustering pairs ids⟩
  else none

structure Statistics where
  total_nodes : Nat
  total_edges : Nat
  node_types : List (String × Nat)
  edge_types : List (String × Nat)
  most_connected_authors : List (String × Nat)
  most_productive_journals : List (String × Nat)
  theme_distribution : List (String × Nat)
  collaboration_network_stats : CollabStats
deriving DecidableEq, Repr

/-- _calculate_statistics, propagating the possible frozen-view failure of
_get_collaboration_stats. -/
def _calculate_statistics (g : KG) : Option Statistics :=
  (_get_collaboration_stats g).map
    (fun cs =>
      ⟨g.nodes.length, g.edges.length,
        counterOf (g.nodes.map (fun p => getTypeUnknown p.2)),
        counterOf (g.allEdges.map (fun e => e.relationship_type)),
        most_connected_authors g, most_productive_journals g,
        theme_distribution g, cs⟩)

/-- Attribute dictionary of a node id (kg.graph.nodes[node_id]). -/
def KG.dataOf (g : KG) (i : String) : Option NodeData :=
  match g.nodes.find? (fun p => p.1 == i) with
  | some p => p.2
  | none => none

/-- Neighbors of u in the undirected view used by the shortest-path
endpoint (each edge usable in both directions, multiplicity kept). -/
def KG.undirNbrs (g : KG) (u : String) : List String :=
  g.edges.filterMap
    (fun e =>
      if e.source == u then some e.target
      else if e.target == u then some e.source else none)

/-- The breadth-first ball of radius n around a in the undirected view. -/
def KG.ball (g : KG) (a : String) : Nat → List String
  | 0 => [a]
  | n + 1 => ballStep g.undirNbrs (g.ball a n)

/-- Fuel bound after which the undirected ball has saturated: every ball
is a duplicate-free list inside a :: (endpoints of all edges). -/
def KG.searchBound (g : KG) : Nat := 2 * g.edges.length + 1

def firstHitAux (g : KG) (a b : String) : Nat → Nat → Option Nat
  | 0, _ => none
  | fuel + 1, k => if (g.ball a k).contains b then some k else firstHitAux g a b fuel (k + 1)

/-- The minimum undirected hop distance found by the breadth-first search
of nx.has_path / nx.shortest_path: the least radius whose ball contains b,
none when b is unreachable. -/
def KG.distOpt (g : KG) (a b : String) : Option Nat :=
  firstHitAux g a b (g.searchBound + 1) 0

/-- Extraction of one shortest path by walking predecessors back from b:
at radius n+1 pick any neighbor of the current node inside the radius-n
ball. -/
def pathBack (g : KG) (a : String) : Nat → String → List String
  | 0, x => [x]
  | n + 1, x =>
    match (g.ball a n).find? (fun u => (g.undirNbrs u).contains x) with
    | some u => pathBack g a n u ++ [x]
    | none => [x]

/-- One entry of the path returned by the endpoint: {id, label, type}. -/
structure PathNode where
  id : String
  label : String
  type : String
deriving DecidableEq, Repr

def KG.pathNodeOf (g : KG) (i : String) : PathNode :=
  ⟨i, getLabel (g.dataOf i), getType (g.dataOf i)⟩

structure PathResult where
  source : String
  target : String
  path : List PathNode
  path_length : Int
deriving DecidableEq, Repr

/-- get_shortest_path of app.py: 404 when either id is absent; otherwise
nx.has_path / nx.shortest_path over the undirected view, answering with
the decorated node sequence and len(path) - 1, or with an empty path and
length -1 when the nodes are disconnected. -/
def get_shortest_path (g : KG) (source_id target_id : String) : Except String PathResult :=
  if source_id ∈ g.nodeIds ∧ target_id ∈ g.nodeIds then
    match g.distOpt source_id target_id with
    | some k =>
      let p := pathBack g source_id k target_id
      Except.ok ⟨source_id, target_id, p.map g.pathNodeOf, (p.length : Int) - 1⟩
    | none => Except.ok ⟨source_id, target_id, [], -1⟩
  else Except.error "One or both nodes not found"

/-- Specification-side undirected adjacency: u and v joined by some edge
in either direction. -/
def stepRel (g : KG) (u v : String) : Prop :=
  ∃ e ∈ g.edges, (e.source = u ∧ e.target = v) ∨ (e.source = v ∧ e.target = u)

/-- Specification-side walks: walkN g a n b holds when an undirected walk
of exactly n hops leads from a to b. -/
def walkN (g : KG) (a : String) : Nat → String → Prop
  | 0, b => a = b
  | n + 1, b => ∃ w, walkN g a n w ∧ stepRel g w b

/-- Specification-side bounded reach over outgoing co_authors edges, used
to state the depth bound of the collaboration-network claims. -/
def coAdj (g : KG) (u : String) : List String :=
  g.edges.filterMap
    (fun e =>
      if e.relationship_type == "co_authors" && e.source == u then some e.target else none)

def KG.coBall (g : KG) (a : String) : Nat → List String
  | 0 => [a]
  | n + 1 => ballStep (coAdj g) (g.coBall a n)

/-- Specification-side character translation of the claimed id
normalization: every space becomes an underscore, every comma is removed,
everything else is lowercased. -/
def specCharMap (c : Char) : List Char :=
  if c = ' ' then ['_'] else if c = ',' then [] else [Char.toLower c]

/-- The normalization as the specification words it, to be compared with
the source-side normalize. -/
def specNormalize (s : String) : String := ⟨s.data.flatMap specCharMap⟩

/-- Reading a count out of an insertion-ordered dictionary: the value at
the first entry carrying the key, if any. -/
def listLookup (l : List (String × Nat)) (k : String) : Option Nat :=
  (l.find? (fun kv => kv.1 == k)).map Prod.snd

/-- The author ids contributed by one record: blank names skipped, the
rest normalized, in list order. -/
def recAuthorIds (r : PubRecord) : List String :=
  (r.authors.filter (fun a => !isBlankName a)).map authorIdOf

/-- The keyword ids contributed by one record. -/
def recKeywordIds (r : PubRecord) : List String :=
  (r.keywords.filter (fun k => !isBlankName k)).map keywordIdOf

/-- The edge block one record contributes during the record loop of
build_from_publications: authored_by edges in author order, then the
optional published_in and has_theme edges, then has_keyword edges (proved
below to be exactly the edges the loop appends). -/
def recEdges (r : PubRecord) : List Edge :=
  (recAuthorIds r).map (fun aid => ⟨pubIdOf r.index, aid, "authored_by", 1, []⟩) ++
    ((if strTruthy r.journal then
        [⟨pubIdOf r.index, journalIdOf (r.journal.getD ""), "published_in", 1, []⟩]
      else []) ++
      ((if strTruthy r.theme then
          [⟨pubIdOf r.index, themeIdOf (r.theme.getD ""), "has_theme", 1, []⟩]
        else []) ++
        (recKeywordIds r).map (fun kid => ⟨pubIdOf r.index, kid, "has_keyword", 1, []⟩)))

/-- Every author-typed node id carries the author prefix (an invariant of
the builder used to separate publication sources from author sources). -/
def AuthorNodesPrefixed (g : KG) : Prop :=
  ∀ p ∈ g.nodes, ∀ nd : NodeData, p.2 = some nd → nd.node_type = "author" →
    ∃ x, p.1 = "author_" ++ x

/-- Publication-typed nodes are exactly the pub_-prefixed ones among the
attribute-carrying nodes. -/
def PubClass (g : KG) : Prop :=
  ∀ p ∈ g.nodes, ∀ nd : NodeData, p.2 = some nd →
    (nd.node_type = "publication" → ∃ x, p.1 = "pub_" ++ x) ∧
    ((∃ x, p.1 = "pub_" ++ x) → nd.node_type = "publication")

/-- The publication-node id list computed up-front by
_add_co_authorship_relationships. -/
def pubIds (g : KG) : List String :=
  (g.nodes.filter (fun p => typeIs p.2 "publication")).map Prod.fst

/-- Publication-typed nodes carry the pub_ prefix (builder invariant). -/
def PubPrefOnly (g : KG) : Prop :=
  ∀ p ∈ g.nodes, typeIs p.2 "publication" = true → ∃ x, p.1 = "pub_" ++ x

/-- The combined publication-list invariant carried through the record
loop: publication-typed nodes are pub_-prefixed and the publication id
list is a fixed L. -/
def PubSt (L : List String) (st : BuildSt) : Prop :=
  PubPrefOnly st.g ∧ pubIds st.g = L

/-- Three stub nodes in a line (a - b - c), used to exercise the
shortest-path endpoint. -/
def pathDemoGraph : KG :=
  ⟨[("a", none), ("b", none), ("c", none)],
   [⟨"a", "b", "r", 1, []⟩, ⟨"b", "c", "r", 1, []⟩]⟩

end NasaKG

deriving instance DecidableEq for Except

namespace NasaKG

theorem data_append (s t : String) : (s ++ t).data = s.data ++ t.data := by
  cases s; cases t; rfl

theorem append_left_ne {c d : Char} {ps qs : List Char} (x y : String) (hcd : c ≠ d) :
    (⟨c :: ps⟩ : String) ++ x ≠ (⟨d :: qs⟩ : String) ++ y := by
  intro h
  have h2 : ((⟨c :: ps⟩ : String) ++ x).data = ((⟨d :: qs⟩ : String) ++ y).data :=
    congrArg String.data h
  rw [data_append, data_append] at h2
  simp only [List.cons_append, List.cons.injEq] at h2
  exact hcd h2.1

theorem pub_ne_author (x y : String) : "pub_" ++ x ≠ "author_" ++ y :=
  append_left_ne x y (by decide)

theorem pub_ne_journal (x y : String) : "pub_" ++ x ≠ "journal_" ++ y :=
  append_left_ne x y (by decide)

theorem pub_ne_theme (x y : String) : "pub_" ++ x ≠ "theme_" ++ y :=
  append_left_ne x y (by decide)

theorem pub_ne_keyword (x y : String) : "pub_" ++ x ≠ "keyword_" ++ y :=
  append_left_ne x y (by decide)

theorem author_ne_journal (x y : String) : "author_" ++ x ≠ "journal_" ++ y :=
  append_left_ne x y (by decide)

theorem author_ne_theme (x y : String) : "author_" ++ x ≠ "theme_" ++ y :=
  append_left_ne x y (by decide)

theorem author_ne_keyword (x y : String) : "author_" ++ x ≠ "keyword_" ++ y :=
  append_left_ne x y (by decide)

theorem add_edge_edges (g : KG) (e : Edge) : (g.add_edge e).edges = g.edges ++ [e] := rfl

theorem add_node_edges (g : KG) (i : String) (d : NodeData) :
    (g.add_node i d).edges = g.edges := by
  unfold KG.add_node
  split <;> rfl

theorem add_node_nodes_of_not_mem {g : KG} {i : String} (d : NodeData)
    (h : i ∉ g.nodeIds) : (g.add_node i d).nodes = g.nodes ++ [(i, some d)] := by
  unfold KG.add_node
  rw [if_neg h]

theorem add_node_nodeIds (g : KG) (i : String) (d : NodeData) :
    (g.add_node i d).nodeIds = if i ∈ g.nodeIds then g.nodeIds else g.nodeIds ++ [i] := by
  unfold KG.add_node KG.nodeIds
  split
  · simp only [List.map_map]
    apply List.map_congr_left
    intro p _
    by_cases hp : p.1 = i <;> simp [hp]
  · simp

theorem add_edge_nodes_of_mem {g : KG} {e : Edge} (hs : e.source ∈ g.nodeIds)
    (ht : e.target ∈ g.nodeIds) : (g.add_edge e).nodes = g.nodes := by
  unfold KG.add_edge
  simp only [hs, if_pos]
  exact if_pos (show e.target ∈ List.map Prod.fst g.nodes from ht)

theorem add_edge_nodeIds_mono {g : KG} (e : Edge) {i : String} (h : i ∈ g.nodeIds) :
    i ∈ (g.add_edge e).nodeIds := by
  unfold KG.add_edge KG.nodeIds at *
  by_cases h1 : e.source ∈ g.nodes.map Prod.fst <;>
    by_cases h2 : e.target ∈ (if e.source ∈ KG.nodeIds g then g.nodes
      else g.nodes ++ [(e.source, none)]).map Prod.fst <;>
    simp_all [KG.nodeIds]

/-- C1 (counterexample): inserting an edge whose endpoints are both absent
does not fail and does not leave the graph unchanged: the edge is stored
and two stub nodes appear. -/
theorem C1_counterexample :
    (KG.empty.add_edge ⟨"a", "b", "co_authors", 1, []⟩).edges =
        [⟨"a", "b", "co_authors", 1, []⟩] ∧
      (KG.empty.add_edge ⟨"a", "b", "co_authors", 1, []⟩).nodes =
        [("a", none), ("b", none)] ∧
      (KG.empty.add_edge ⟨"a", "b", "co_authors", 1, []⟩).nodes ≠ KG.empty.nodes := by
  refine ⟨rfl, rfl, ?_⟩
  decide

/-- C1 (amended): add_edge never fails.  It always appends the edge; an
absent endpoint id is silently materialized as a stub node, so after every
insertion both endpoints are node ids of the graph (no dangling endpoint)
and all previous node ids survive. -/
theorem C1_add_edge_total (g : KG) (e : Edge) :
    (g.add_edge e).edges = g.edges ++ [e] ∧
      e.source ∈ (g.add_edge e).nodeIds ∧
      e.target ∈ (g.add_edge e).nodeIds ∧
      ∀ i ∈ g.nodeIds, i ∈ (g.add_edge e).nodeIds := by
  refine ⟨rfl, ?_, ?_, fun i hi => add_edge_nodeIds_mono e hi⟩ <;>
    unfold KG.add_edge KG.nodeIds <;>
    by_cases h1 : e.source ∈ g.nodes.map Prod.fst <;>
    by_cases h2 : e.target ∈ (if e.source ∈ KG.nodeIds g then g.nodes
      else g.nodes ++ [(e.source, none)]).map Prod.fst <;>
    simp_all [KG.nodeIds]

/-- Witness for C1_add_edge_total at a one-node graph and a dangling edge. -/
theorem C1_witness :
    ((KG.empty.add_node "n" ⟨"N", "author", [], 1⟩).add_edge
        ⟨"n", "m", "co_authors", 1, []⟩).edges =
        [⟨"n", "m", "co_authors", 1, []⟩] ∧
      "m" ∈ ((KG.empty.add_node "n" ⟨"N", "author", [], 1⟩).add_edge
        ⟨"n", "m", "co_authors", 1, []⟩).nodeIds ∧
      "n" ∈ ((KG.empty.add_node "n" ⟨"N", "author", [], 1⟩).add_edge
        ⟨"n", "m", "co_authors", 1, []⟩).nodeIds := by
  obtain ⟨h1, _, h3, h4⟩ :=
    C1_add_edge_total (KG.empty.add_node "n" ⟨"N", "author", [], 1⟩)
      ⟨"n", "m", "co_authors", 1, []⟩
  exact ⟨h1, h3, h4 "n" (by decide)⟩

end NasaKG

namespace NasaKG

theorem charMap_eq (l : List Char) :
    ((l.flatMap (fun x => if x = ' ' then ['_'] else [x])).flatMap
      (fun x => if x = ',' then [] else [x])).map Char.toLower = l.flatMap specCharMap := by
  induction l with
  | nil => rfl
  | cons c cs ih =>
    simp only [List.flatMap_cons, List.flatMap_append, List.map_append, ih, specCharMap]
    congr 1
    by_cases h1 : c = ' '
    · simp [h1]
    · by_cases h2 : c = ','
      · simp [h1, h2]
      · simp [h1, h2]

/-- The source-side normalization chain equals the specification-side
character translation. -/
theorem normalize_eq_specNormalize (s : String) : normalize s = specNormalize s := by
  cases s with
  | mk l => exact congrArg String.mk (charMap_eq l)

/-- C8: for every entity kind the derived node id is the kind prefix, an
underscore, and normalize(name), where normalize replaces every space
with an underscore, removes every comma and lowercases (a pure total
function); two distinct raw names with equal normalizations receive the
same id, and a build treats them as one node (the collision is kept). -/
theorem C8_entity_id_normalization (s t : String) (hne : s ≠ t)
    (hcol : specNormalize s = specNormalize t)
    (hs : isBlankName s = false) (ht : isBlankName t = false) :
    (authorIdOf s = "author_" ++ specNormalize s ∧
      journalIdOf s = "journal_" ++ specNormalize s ∧
      themeIdOf s = "theme_" ++ specNormalize s ∧
      keywordIdOf s = "keyword_" ++ specNormalize s) ∧
    authorIdOf s = authorIdOf t ∧
    ((build_from_publications [{ index := 0, title := "T", authors := [s, t] }]).nodes.countP
        (fun p => typeIs p.2 "author")) = 1 := by
  refine ⟨⟨?_, ?_, ?_, ?_⟩, ?_, ?_⟩
  · unfold authorIdOf; rw [normalize_eq_specNormalize]
  · unfold journalIdOf; rw [normalize_eq_specNormalize]
  · unfold themeIdOf; rw [normalize_eq_specNormalize]
  · unfold keywordIdOf; rw [normalize_eq_specNormalize]
  · unfold authorIdOf; rw [normalize_eq_specNormalize, normalize_eq_specNormalize, hcol]
  · have hid : authorIdOf t = authorIdOf s := by
      unfold authorIdOf
      rw [normalize_eq_specNormalize, normalize_eq_specNormalize, hcol]
    have hpa : ¬(authorIdOf s = pubIdOf 0) := fun h =>
      pub_ne_author (toString 0) (normalize s) h.symm
    set r : PubRecord := { index := 0, title := "T", authors := [s, t] } with hr
    set P : NodeData := ⟨pubLabel "T", "publication", pubProps r, 1⟩ with hP
    set A : NodeData := ⟨s, "author", [("name", PVal.str s)], 1⟩ with hA
    set pid := pubIdOf 0 with hpid
    set aid := authorIdOf s with haid
    set E : Edge := ⟨pid, aid, "authored_by", 1, []⟩ with hE
    have h1 : phase1 [r] = ⟨[(pid, some P), (aid, some A)], [E, E]⟩ := by
      simp only [phase1, List.foldl, processRecord, processJournal, processTheme, strTruthy,
        processAuthor, hs, ht, Bool.false_eq_true, if_false, hid]
      simp [KG.add_node, KG.add_edge, KG.empty, KG.nodeIds, hpa, hr, hP, hA, hE]
    have h2 : authorsOfPub ⟨[(pid, some P), (aid, some A)], [E, E]⟩ pid = [aid, aid] := by
      simp [authorsOfPub, KG.edgesFrom, KG.outEdges, adjOrder, adjOrderFuel, hE]
    have h3 : addCoAuthorship ⟨[(pid, some P), (aid, some A)], [E, E]⟩ =
        ⟨[(pid, some P), (aid, some A)], [E, E, mkCoEdge (aid, aid)]⟩ := by
      simp only [addCoAuthorship]
      have hpubs : ((⟨[(pid, some P), (aid, some A)], [E, E]⟩ : KG).nodes.filter
          (fun p => typeIs p.2 "publication")).map Prod.fst = [pid] := rfl
      rw [hpubs]
      simp only [List.foldl_cons, List.foldl_nil]
      rw [h2]
      simp only [pairsOf, List.map_cons, List.map_nil, List.append_nil, List.cons_append,
        List.nil_append, List.foldl_cons, List.foldl_nil]
      simp [KG.add_edge, KG.nodeIds, mkCoEdge]
    simp only [build_from_publications, h1, h3]
    rfl

/-- Witness for C8 at the colliding raw names "A B" and "a,_b". -/
theorem C8_witness :
    ("A B" ≠ "a,_b" ∧ specNormalize "A B" = specNormalize "a,_b" ∧
      isBlankName "A B" = false ∧ isBlankName "a,_b" = false) ∧
    (authorIdOf "A B" = "author_" ++ specNormalize "A B" ∧
      journalIdOf "A B" = "journal_" ++ specNormalize "A B" ∧
      themeIdOf "A B" = "theme_" ++ specNormalize "A B" ∧
      keywordIdOf "A B" = "keyword_" ++ specNormalize "A B") ∧
    authorIdOf "A B" = authorIdOf "a,_b" ∧
    ((build_from_publications
        [{ index := 0, title := "T", authors := ["A B", "a,_b"] }]).nodes.countP
      (fun p => typeIs p.2 "author")) = 1 :=
  ⟨⟨by decide, by decide, by decide, by decide⟩,
    C8_entity_id_normalization "A B" "a,_b" (by decide) (by decide) (by decide) (by decide)⟩

/-- The relationship-type test of the collaboration BFS always fails: the
atlas g[u][v] is keyed by integers, so the string lookup returns None, and
None == 'co_authors' is False. -/
theorem relCheck_false (g : KG) (u v : String) : relCheck g u v = false := by
  unfold relCheck relTypeLookup
  have h : (g.edgeKeyAtlas u v).find? (fun kv => kv.1 == PyKey.pstr "relationship_type")
      = none := by
    apply List.find?_eq_none.mpr
    intro kv hkv
    unfold KG.edgeKeyAtlas at hkv
    simp only [List.mem_map] at hkv
    obtain ⟨p, _, rfl⟩ := hkv
    simp
  rw [h]
  rfl

theorem collabNbrStep_id (g : KG) (node : String) (acc : BfsSt) (nb : String) :
    collabNbrStep g node acc nb = acc := by
  unfold collabNbrStep
  rw [relCheck_false]
  simp

theorem collab_inner_fold (g : KG) (node : String) (l : List String) (acc : BfsSt) :
    l.foldl (collabNbrStep g node) acc = acc := by
  induction l generalizing acc with
  | nil => rfl
  | cons x xs ih =>
    rw [List.foldl_cons, collabNbrStep_id]
    exact ih acc

theorem collabVisit_fields (g : KG) (st : BfsSt) (node : String) :
    collabVisit g st node = st ∨
      collabVisit g st node = { st with visited := st.visited ++ [node] } := by
  unfold collabVisit
  split
  · exact Or.inl rfl
  · rw [collab_inner_fold]
    exact Or.inr rfl

theorem collabRound_fields (g : KG) (st : BfsSt) :
    (collabRound g st).result_nodes = st.result_nodes ∧
      (collabRound g st).result_edges = st.result_edges ∧
      (collabRound g st).level = [] := by
  have key : ∀ (l : List String) (acc : BfsSt),
      (l.foldl (collabVisit g) acc).result_nodes = acc.result_nodes ∧
        (l.foldl (collabVisit g) acc).result_edges = acc.result_edges ∧
        (l.foldl (collabVisit g) acc).level = acc.level := by
    intro l
    induction l with
    | nil => exact fun acc => ⟨rfl, rfl, rfl⟩
    | cons x xs ih =>
      intro acc
      rcases collabVisit_fields g acc x with h | h <;>
        simp only [List.foldl_cons, h] <;> exact ih _
  exact key st.level { st with level := [] }

theorem collabRounds_result (g : KG) (n : Nat) (st : BfsSt) :
    (collabRounds g n st).result_nodes = st.result_nodes ∧
      (collabRounds g n st).result_edges = st.result_edges := by
  induction n generalizing st with
  | zero => exact ⟨rfl, rfl⟩
  | succ k ih =>
    simp only [collabRounds]
    obtain ⟨h1, h2, _⟩ := collabRound_fields g st
    obtain ⟨i1, i2⟩ := ih (collabRound g st)
    exact ⟨i1.trans h1, i2.trans h2⟩

/-- Whatever the depth, the collaboration-network query of the source code
returns only the origin node and no edges (the relationship-type test can
never succeed on a MultiDiGraph). -/
theorem collab_network_const (g : KG) (name : String) (d : Nat)
    (h : authorIdOf name ∈ g.nodeIds) :
    get_author_collaboration_network g name d =
      some ⟨[authorIdOf name], [], name⟩ := by
  unfold get_author_collaboration_network
  rw [if_pos h]
  obtain ⟨h1, h2⟩ := collabRounds_result g d ⟨[], [authorIdOf name], [authorIdOf name], []⟩
  show (some ⟨(collabRounds g d ⟨[], [authorIdOf name], [authorIdOf name], []⟩).result_nodes,
      (collabRounds g d ⟨[], [authorIdOf name], [authorIdOf name], []⟩).result_edges, name⟩ :
      Option CollabResult) = some ⟨[authorIdOf name], [], name⟩
  rw [h1, h2]

theorem mem_ballIter_of_mem (adj : String → List String) (n : Nat) :
    ∀ (cur : List String) (x : String), x ∈ cur → x ∈ ballIter adj n cur := by
  induction n with
  | zero => intro cur x hx; exact hx
  | succ k ih =>
    intro cur x hx
    exact ih (ballStep adj cur) x (List.mem_append_left _ hx)

theorem coBall_self (g : KG) (a : String) (d : Nat) : a ∈ g.coBall a d := by
  induction d with
  | zero => exact List.mem_singleton.mpr rfl
  | succ k ih => exact List.mem_append_left _ ih

/-- C9: at depth 0 the collaboration query returns exactly the origin node
and no edges, and at any depth every returned node lies within that many
co_authors hops of the origin. -/
theorem C9_collab_depth_bound (g : KG) (name : String) (d : Nat)
    (h : authorIdOf name ∈ g.nodeIds) :
    get_author_collaboration_network g name 0 =
        some ⟨[authorIdOf name], [], name⟩ ∧
      ∀ r, get_author_collaboration_network g name d = some r →
        ∀ x ∈ r.nodes, x ∈ g.coBall (authorIdOf name) d := by
  refine ⟨collab_network_const g name 0 h, ?_⟩
  intro r hr x hx
  rw [collab_network_const g name d h] at hr
  cases hr
  have hxa : x = authorIdOf name := List.mem_singleton.mp hx
  subst hxa
  exact coBall_self g (authorIdOf name) d

/-- Witness for C9 on a two-author build. -/
theorem C9_witness :
    get_author_collaboration_network
        (build_from_publications [{ index := 0, title := "T1", authors := ["Alice", "Bob"] }])
        "Alice" 0 = some ⟨["author_alice"], [], "Alice"⟩ ∧
      ∀ r, get_author_collaboration_network
          (build_from_publications
            [{ index := 0, title := "T1", authors := ["Alice", "Bob"] }])
          "Alice" 2 = some r →
        ∀ x ∈ r.nodes,
          x ∈ (build_from_publications
            [{ index := 0, title := "T1", authors := ["Alice", "Bob"] }]).coBall
              (authorIdOf "Alice") 2 :=
  C9_collab_depth_bound
    (build_from_publications [{ index := 0, title := "T1", authors := ["Alice", "Bob"] }])
    "Alice" 2 (by decide)

/-- C2: the code evaluated at a failing input.  Alice and Bob share one
publication, so a single co_authors edge joins them, yet the
collaboration-network query at depth 1 answers with only the origin node
and no edges: the breadth-first expansion the specification describes
never happens, because self.graph[node][neighbor] is keyed by integer
edge keys and .get('relationship_type') always returns None. -/
theorem C2_bfs_never_expands :
    (build_from_publications
        [{ index := 0, title := "T1", authors := ["Alice", "Bob"] }]).edges.filter
      (fun e => e.relationship_type == "co_authors") =
      [⟨"author_alice", "author_bob", "co_authors", 1, []⟩] ∧
    get_author_collaboration_network
      (build_from_publications [{ index := 0, title := "T1", authors := ["Alice", "Bob"] }])
      "Alice" 1 = some ⟨["author_alice"], [], "Alice"⟩ ∧
    "author_bob" ∉ (get_author_collaboration_network
      (build_from_publications [{ index := 0, title := "T1", authors := ["Alice", "Bob"] }])
      "Alice" 1).elim [] CollabResult.nodes := by
  refine ⟨by decide, by decide, by decide⟩

end NasaKG

namespace NasaKG

/-- C7: building from the empty record list terminates with the empty
graph, and the statistics snapshot computed from it is all zeros and
empties: both the largest-component max and the clustering average sit
behind explicit emptiness guards, and the frozen-view removal loop runs
on an empty list, so no division by zero and no max over an empty
collection is reached. -/
theorem C7_empty_build :
    (build_from_publications []).nodes = [] ∧
      (build_from_publications []).edges = [] ∧
      _calculate_statistics (build_from_publications []) =
        some ⟨0, 0, [], [], [], [], [], ⟨0, 0, 0, 0⟩⟩ := by
  exact ⟨rfl, rfl, by decide⟩

end NasaKG

namespace NasaKG

theorem adjOrderFuel_le : ∀ (n : Nat) (es : List Edge), es.length ≤ n →
    adjOrderFuel n es = adjOrderFuel es.length es := by
  intro n
  induction n using Nat.strong_induction_on with
  | _ n ih =>
    intro es h
    cases es with
    | nil => cases n <;> rfl
    | cons e es =>
      cases n with
      | zero => simp at h
      | succ m =>
        simp only [adjOrderFuel, List.length_cons]
        have hes : es.length ≤ m := by
          simp only [List.length_cons] at h
          omega
        have hf : (es.filter (fun x => x.target != e.target)).length ≤ es.length :=
          List.length_filter_le _ _
        rw [ih m (Nat.lt_succ_self m) _ (le_trans hf hes),
          ih es.length (Nat.lt_succ_of_le hes) _ hf]

theorem adjOrder_cons (e : Edge) (es : List Edge) :
    adjOrder (e :: es) = e :: (es.filter (fun x => x.target == e.target) ++
      adjOrder (es.filter (fun x => x.target != e.target))) := by
  show adjOrderFuel ((e :: es).length) (e :: es) = _
  simp only [List.length_cons, adjOrderFuel]
  rw [adjOrderFuel_le es.length _ (List.length_filter_le _ _)]
  rfl

theorem adjOrder_perm_aux : ∀ (n : Nat) (es : List Edge), es.length ≤ n →
    List.Perm (adjOrder es) es := by
  intro n
  induction n with
  | zero =>
    intro es h
    have : es = [] := List.eq_nil_of_length_eq_zero (Nat.le_zero.mp h)
    subst this
    exact List.Perm.refl _
  | succ m ih =>
    intro es h
    cases es with
    | nil => exact List.Perm.refl _
    | cons e es =>
      rw [adjOrder_cons]
      have hes : es.length ≤ m := by
        simp only [List.length_cons] at h
        omega
      have hp := ih (es.filter (fun x => x.target != e.target))
        (le_trans (List.length_filter_le _ _) hes)
      refine List.Perm.cons e (List.Perm.trans (List.Perm.append_left _ hp) ?_)
      have hfun : (fun x : Edge => x.target != e.target) =
          (fun x : Edge => !(x.target == e.target)) := by
        funext x
        simp [bne]
      rw [hfun]
      exact List.filter_append_perm _ es

theorem adjOrder_perm (es : List Edge) : List.Perm (adjOrder es) es :=
  adjOrder_perm_aux es.length es le_rfl

theorem flatMap_perm_congr {α β : Type} (l : List α) (f h : α → List β)
    (hp : ∀ a ∈ l, List.Perm (f a) (h a)) :
    List.Perm (l.flatMap f) (l.flatMap h) := by
  induction l with
  | nil => simp
  | cons a t ih =>
    rw [List.flatMap_cons, List.flatMap_cons]
    exact List.Perm.append (hp a (List.mem_cons_self a t))
      (ih (fun b hb => hp b (List.mem_cons_of_mem _ hb)))

theorem fiber_flatMap_perm {α β : Type} [BEq β] [LawfulBEq β] (keys : List β) (l : List α)
    (f : α → β) (hnd : keys.Nodup) (hall : ∀ a ∈ l, f a ∈ keys) :
    List.Perm (keys.flatMap (fun k => l.filter (fun a => f a == k))) l := by
  induction keys generalizing l with
  | nil =>
    have hl : l = [] := by
      cases l with
      | nil => rfl
      | cons a t => exact absurd (hall a (List.mem_cons_self a t)) (List.not_mem_nil _)
    subst hl
    simp
  | cons k ks ih =>
    obtain ⟨hk, hks⟩ := List.nodup_cons.mp hnd
    rw [List.flatMap_cons]
    have hstep : ks.flatMap (fun k2 => l.filter (fun a => f a == k2)) =
        ks.flatMap (fun k2 => (l.filter (fun a => !(f a == k))).filter (fun a => f a == k2)) := by
      apply List.flatMap_congr
      intro k2 hk2
      rw [List.filter_filter]
      apply List.filter_congr
      intro a _
      by_cases hfa : f a = k2
      · have hne : f a ≠ k := by
          intro hh
          apply hk
          rw [← hh, hfa]
          exact hk2
        simp [hfa, hne]
        exact fun hh => hne (hfa.trans hh)
      · simp [hfa]
    rw [hstep]
    have hall2 : ∀ a ∈ l.filter (fun a => !(f a == k)), f a ∈ ks := by
      intro a ha
      obtain ⟨hal, hfk⟩ := List.mem_filter.mp ha
      rcases List.mem_cons.mp (hall a hal) with h1 | h1
      · rw [h1] at hfk
        simp at hfk
      · exact h1
    refine List.Perm.trans (List.Perm.append_left _ (ih _ hks hall2)) ?_
    exact List.filter_append_perm _ l

/-- graph.edges(data=True) enumerates exactly the stored edge multiset
whenever node ids are unique and every edge source is a node (true of all
graphs produced by add_node / add_edge). -/
theorem allEdges_perm (g : KG) (hnd : g.nodeIds.Nodup)
    (hsrc : ∀ e ∈ g.edges, e.source ∈ g.nodeIds) :
    List.Perm g.allEdges g.edges := by
  unfold KG.allEdges
  refine List.Perm.trans
    (flatMap_perm_congr _ _ _ (fun p _ => adjOrder_perm (g.outEdges p.1))) ?_
  have hrw : g.nodes.flatMap (fun p => g.outEdges p.1) =
      g.nodeIds.flatMap (fun k => g.edges.filter (fun e => e.source == k)) := by
    rw [KG.nodeIds, List.flatMap_map]
    rfl
  rw [hrw]
  exact fiber_flatMap_perm g.nodeIds g.edges Edge.source hnd hsrc

end NasaKG

namespace NasaKG

theorem load_nodes_aux (nodes : List NodeRec) :
    ∀ (g0 : KG), (∀ nr ∈ nodes, nr.id ∉ g0.nodeIds) → (nodes.map NodeRec.id).Nodup →
      nodes.foldl
        (fun g nr => g.add_node nr.id ⟨nr.label, nr.type, nr.properties, nr.weight⟩) g0 =
      ⟨g0.nodes ++
          nodes.map (fun nr => (nr.id, some ⟨nr.label, nr.type, nr.properties, nr.weight⟩)),
        g0.edges⟩ := by
  induction nodes with
  | nil => intro g0 _ _; simp
  | cons nr rest ih =>
    intro g0 hni hnd
    rw [List.map_cons] at hnd
    obtain ⟨hhead, htail⟩ := List.nodup_cons.mp hnd
    rw [List.foldl_cons]
    have h1 : g0.add_node nr.id ⟨nr.label, nr.type, nr.properties, nr.weight⟩ =
        ⟨g0.nodes ++ [(nr.id, some ⟨nr.label, nr.type, nr.properties, nr.weight⟩)],
          g0.edges⟩ := by
      unfold KG.add_node
      rw [if_neg (hni nr (List.mem_cons_self nr rest))]
    rw [h1, ih _ ?_ htail]
    · simp
    · intro r hr
      have hids : KG.nodeIds ⟨g0.nodes ++
          [(nr.id, some ⟨nr.label, nr.type, nr.properties, nr.weight⟩)], g0.edges⟩ =
          g0.nodeIds ++ [nr.id] := by
        simp [KG.nodeIds]
      rw [hids]
      intro hmem
      rcases List.mem_append.mp hmem with h | h
      · exact hni r (List.mem_cons_of_mem _ hr) h
      · exact hhead (by
          have : r.id = nr.id := List.mem_singleton.mp h
          rw [← this]
          exact List.mem_map_of_mem NodeRec.id hr)

theorem load_edges_aux (edges : List Edge) :
    ∀ (g0 : KG), (∀ e ∈ edges, e.source ∈ g0.nodeIds ∧ e.target ∈ g0.nodeIds) →
      edges.foldl (fun g e => g.add_edge e) g0 = ⟨g0.nodes, g0.edges ++ edges⟩ := by
  induction edges with
  | nil => intro g0 _; simp
  | cons e rest ih =>
    intro g0 hmem
    obtain ⟨hs, ht⟩ := hmem e (List.mem_cons_self e rest)
    rw [List.foldl_cons]
    have h1 : g0.add_edge e = ⟨g0.nodes, g0.edges ++ [e]⟩ := by
      have hn := add_edge_nodes_of_mem hs ht
      have he := add_edge_edges g0 e
      cases hg : g0.add_edge e
      simp only [hg] at hn he
      simp [hn, he]
    rw [h1, ih _ ?_]
    · simp
    · intro e2 he2
      exact hmem e2 (List.mem_cons_of_mem _ he2)

/-- C3: exporting a well-formed graph (unique node ids, edge endpoints
present — true of every graph assembled through add_node / add_edge) and
importing the document reproduces the node array exactly (ids, labels,
types, properties, weights) and the edge multiset, overall and per
relationship type; only the edge order may differ. -/
theorem C3_export_import_roundtrip (g : KG) (hnd : g.nodeIds.Nodup)
    (hsrc : ∀ e ∈ g.edges, e.source ∈ g.nodeIds)
    (htgt : ∀ e ∈ g.edges, e.target ∈ g.nodeIds) :
    exportNodes (load_knowledge_graph (export_to_json g).1 (export_to_json g).2) =
        exportNodes g ∧
      List.Perm (load_knowledge_graph (export_to_json g).1 (export_to_json g).2).edges
        g.edges ∧
      ∀ rel, List.Perm
        ((load_knowledge_graph (export_to_json g).1 (export_to_json g).2).edges.filter
          (fun e => e.relationship_type == rel))
        (g.edges.filter (fun e => e.relationship_type == rel)) := by
  have hids : (exportNodes g).map NodeRec.id = g.nodeIds := by
    unfold exportNodes KG.nodeIds
    rw [List.map_map]
    apply List.map_congr_left
    intro p _
    rfl
  have hep : List.Perm g.allEdges g.edges := allEdges_perm g hnd hsrc
  have hload1 := load_nodes_aux (exportNodes g) KG.empty
    (fun nr _ => List.not_mem_nil nr.id) (by rw [hids]; exact hnd)
  have hids2 : KG.nodeIds ⟨(exportNodes g).map
      (fun nr => (nr.id, some ⟨nr.label, nr.type, nr.properties, nr.weight⟩)), []⟩ =
      g.nodeIds := by
    rw [← hids]
    unfold KG.nodeIds
    rw [List.map_map]
    apply List.map_congr_left
    intro p _
    rfl
  have hload1b : (exportNodes g).foldl
      (fun g2 nr => g2.add_node nr.id ⟨nr.label, nr.type, nr.properties, nr.weight⟩)
      KG.empty =
      ⟨(exportNodes g).map
        (fun nr => (nr.id, some ⟨nr.label, nr.type, nr.properties, nr.weight⟩)), []⟩ := by
    rw [hload1]
    rfl
  have hmempre : ∀ e ∈ g.allEdges,
      e.source ∈ KG.nodeIds ⟨(exportNodes g).map
          (fun nr => (nr.id, some ⟨nr.label, nr.type, nr.properties, nr.weight⟩)), []⟩ ∧
        e.target ∈ KG.nodeIds ⟨(exportNodes g).map
          (fun nr => (nr.id, some ⟨nr.label, nr.type, nr.properties, nr.weight⟩)), []⟩ := by
    intro e he
    have heg : e ∈ g.edges := (List.Perm.mem_iff hep).mp he
    rw [hids2]
    exact ⟨hsrc e heg, htgt e heg⟩
  have hload2 : load_knowledge_graph (export_to_json g).1 (export_to_json g).2 =
      ⟨(exportNodes g).map
        (fun nr => (nr.id, some ⟨nr.label, nr.type, nr.properties, nr.weight⟩)),
        g.allEdges⟩ := by
    show g.allEdges.foldl (fun g2 e => g2.add_edge e)
      ((exportNodes g).foldl
        (fun g2 nr => g2.add_node nr.id ⟨nr.label, nr.type, nr.properties, nr.weight⟩)
        KG.empty) = _
    rw [hload1b, load_edges_aux g.allEdges _ hmempre]
    rfl
  constructor
  · rw [hload2]
    unfold exportNodes
    rw [List.map_map, List.map_map]
    apply List.map_congr_left
    intro p _
    rfl
  · constructor
    · rw [hload2]
      exact hep
    · intro rel
      rw [hload2]
      exact List.Perm.filter _ hep

/-- Witness for C3 on a two-node, one-edge graph. -/
theorem C3_witness :
    exportNodes (load_knowledge_graph
        (export_to_json ⟨[("a", some ⟨"A", "author", [], 1⟩),
          ("b", some ⟨"B", "author", [], 1⟩)], [⟨"a", "b", "co_authors", 1, []⟩]⟩).1
        (export_to_json ⟨[("a", some ⟨"A", "author", [], 1⟩),
          ("b", some ⟨"B", "author", [], 1⟩)], [⟨"a", "b", "co_authors", 1, []⟩]⟩).2) =
      exportNodes ⟨[("a", some ⟨"A", "author", [], 1⟩),
        ("b", some ⟨"B", "author", [], 1⟩)], [⟨"a", "b", "co_authors", 1, []⟩]⟩ ∧
    List.Perm (load_knowledge_graph
        (export_to_json ⟨[("a", some ⟨"A", "author", [], 1⟩),
          ("b", some ⟨"B", "author", [], 1⟩)], [⟨"a", "b", "co_authors", 1, []⟩]⟩).1
        (export_to_json ⟨[("a", some ⟨"A", "author", [], 1⟩),
          ("b", some ⟨"B", "author", [], 1⟩)], [⟨"a", "b", "co_authors", 1, []⟩]⟩).2).edges
      [⟨"a", "b", "co_authors", 1, []⟩] :=
  have h := C3_export_import_roundtrip
    ⟨[("a", some ⟨"A", "author", [], 1⟩), ("b", some ⟨"B", "author", [], 1⟩)],
      [⟨"a", "b", "co_authors", 1, []⟩]⟩
    (by decide) (by decide) (by decide)
  ⟨h.1, h.2.1⟩

end NasaKG

namespace NasaKG

theorem bump_lookup_same (acc : List (String × Nat)) (k : String) :
    listLookup (bump acc k) k = some ((listLookup acc k).getD 0 + 1) := by
  unfold bump listLookup
  have hpe : ((fun kv : String × Nat => kv.1 == k) ∘
      (fun kv : String × Nat => if kv.1 == k then (kv.1, kv.2 + 1) else kv)) =
      (fun kv : String × Nat => kv.1 == k) := by
    funext kv
    by_cases h : kv.1 = k <;> simp [h]
  by_cases hany : acc.any (fun kv => kv.1 == k)
  · rw [if_pos hany, List.find?_map, hpe]
    cases hfind : acc.find? (fun kv => kv.1 == k) with
    | none =>
      exfalso
      rw [List.find?_eq_none] at hfind
      obtain ⟨x, hx, hpx⟩ := List.any_eq_true.mp hany
      exact hfind x hx hpx
    | some kv =>
      have hk : kv.1 = k := by simpa using List.find?_some hfind
      simp [hk]
  · rw [if_neg hany]
    have hnone : acc.find? (fun kv => kv.1 == k) = none := by
      rw [List.find?_eq_none]
      intro kv hkv hpkv
      exact hany (List.any_eq_true.mpr ⟨kv, hkv, hpkv⟩)
    rw [List.find?_append, hnone]
    simp

theorem bump_lookup_other (acc : List (String × Nat)) (k k2 : String) (h : k2 ≠ k) :
    listLookup (bump acc k) k2 = listLookup acc k2 := by
  unfold bump listLookup
  by_cases hany : acc.any (fun kv => kv.1 == k)
  · rw [if_pos hany, List.find?_map]
    have hpe : ((fun kv : String × Nat => kv.1 == k2) ∘
        (fun kv : String × Nat => if kv.1 == k then (kv.1, kv.2 + 1) else kv)) =
        (fun kv : String × Nat => kv.1 == k2) := by
      funext kv
      by_cases hk : kv.1 = k <;> simp [hk, h.symm]
    rw [hpe]
    cases hfind : acc.find? (fun kv => kv.1 == k2) with
    | none => simp
    | some kv =>
      have hk2 : kv.1 = k2 := by simpa using List.find?_some hfind
      have hne : ¬(kv.1 = k) := by

        rw [hk2]
        exact h
      simp [hne]
  · rw [if_neg hany, List.find?_append]
    cases hfind : acc.find? (fun kv => kv.1 == k2) with
    | none => simp [Ne.symm h]
    | some kv => simp

theorem bump_pos (acc : List (String × Nat)) (h : ∀ kv ∈ acc, 0 < kv.2) (k : String) :
    ∀ kv ∈ bump acc k, 0 < kv.2 := by
  unfold bump
  intro kv hkv
  by_cases hany : acc.any (fun kv2 => kv2.1 == k)
  · rw [if_pos hany] at hkv
    obtain ⟨kv0, hkv0, rfl⟩ := List.mem_map.mp hkv
    have hp := h kv0 hkv0
    by_cases h0 : kv0.1 = k
    · simp [h0]
    · simpa [h0] using hp
  · rw [if_neg hany] at hkv
    rcases List.mem_append.mp hkv with h1 | h1
    · exact h kv h1
    · have : kv = (k, 1) := List.mem_singleton.mp h1
      rw [this]
      exact Nat.one_pos

theorem bump_fold_lookup (keys : List String) :
    ∀ (acc : List (String × Nat)), (∀ kv ∈ acc, 0 < kv.2) → ∀ (k : String),
      listLookup (keys.foldl bump acc) k =
        if 0 < (listLookup acc k).getD 0 + keys.count k then
          some ((listLookup acc k).getD 0 + keys.count k)
        else none := by
  induction keys with
  | nil =>
    intro acc hpos k
    simp only [List.foldl_nil, List.count_nil, Nat.add_zero]
    cases hl : listLookup acc k with
    | none => rfl
    | some v =>
      have hv : 0 < v := by
        unfold listLookup at hl
        cases hfind : acc.find? (fun kv => kv.1 == k) with
        | none => rw [hfind] at hl; simp at hl
        | some kv =>
          rw [hfind] at hl
          have hkv2 : kv.2 = v := by simpa using hl
          rw [← hkv2]
          exact hpos kv (List.mem_of_find?_eq_some hfind)
      simp [hv]
  | cons k1 rest ih =>
    intro acc hpos k
    rw [List.foldl_cons, ih (bump acc k1) (bump_pos acc hpos k1) k]
    by_cases hk : k = k1
    · subst hk
      rw [bump_lookup_same, List.count_cons_self]
      simp only [Option.getD_some]
      have harith : (listLookup acc k).getD 0 + 1 + rest.count k =
          (listLookup acc k).getD 0 + (rest.count k + 1) := by omega
      rw [harith]
    · rw [bump_lookup_other acc k1 k hk, List.count_cons_of_ne hk]

theorem countP_eq_sum_indicator {α : Type} (p : α → Bool) (l : List α) :
    l.countP p = (l.map (fun y => if p y then 1 else 0)).sum := by
  induction l with
  | nil => rfl
  | cons a t ih =>
    rw [List.countP_cons, List.map_cons, List.sum_cons, ih]
    by_cases h : p a <;> simp [h] <;> omega

theorem sum_map_add {α : Type} (l : List α) (f h : α → Nat) :
    (l.map (fun a => f a + h a)).sum = (l.map f).sum + (l.map h).sum := by
  induction l with
  | nil => rfl
  | cons a t ih =>
    simp only [List.map_cons, List.sum_cons, ih]
    omega

theorem sum_countP_swap {α β : Type} (l1 : List α) (l2 : List β) (R : α → β → Bool) :
    (l1.map (fun x => l2.countP (fun y => R x y))).sum =
      (l2.map (fun y => l1.countP (fun x => R x y))).sum := by
  induction l1 with
  | nil => simp
  | cons a t ih =>
    simp only [List.map_cons, List.sum_cons]
    rw [ih]
    have hsplit : (l2.map (fun y => t.countP (fun x => R x y) + (if R a y then 1 else 0))).sum =
        (l2.map (fun y => t.countP (fun x => R x y))).sum +
          (l2.map (fun y => if R a y then 1 else 0)).sum := by
      have := sum_map_add l2 (fun y => t.countP (fun x => R x y)) (fun y => if R a y then 1 else 0)
      simpa using this
    have hcons : (l2.map (fun y => (a :: t).countP (fun x => R x y))).sum =
        (l2.map (fun y => t.countP (fun x => R x y) + (if R a y then 1 else 0))).sum := by
      congr 1
      apply List.map_congr_left
      intro y _
      rw [List.countP_cons]
    rw [hcons, hsplit, countP_eq_sum_indicator (fun y => R a y) l2]
    omega

theorem sum_map_filter_eq {α : Type} (l : List α) (U : α → Bool) (F : α → Nat) :
    ((l.filter U).map F).sum = (l.map (fun x => if U x then F x else 0)).sum := by
  induction l with
  | nil => rfl
  | cons a t ih =>
    by_cases h : U a
    · rw [List.filter_cons_of_pos h, List.map_cons, List.sum_cons, ih, List.map_cons,
        List.sum_cons, if_pos h]
    · rw [List.filter_cons_of_neg h, ih, List.map_cons, List.sum_cons, if_neg h]
      omega

theorem if_countP_absorb {α : Type} (c : Bool) (p : α → Bool) (l : List α) :
    (if c then l.countP p else 0) = l.countP (fun y => c && p y) := by
  cases c with
  | true => simp
  | false => simp

theorem strBeqComm (a b : String) : (a == b) = (b == a) := by
  by_cases h : a = b
  · simp [h]
  · simp [h, Ne.symm h]

theorem foldl_flatMap {α β γ : Type} (l : List α) (f : α → List β) (step : γ → β → γ)
    (init : γ) :
    (l.flatMap f).foldl step init = l.foldl (fun acc a => (f a).foldl step acc) init := by
  induction l generalizing init with
  | nil => rfl
  | cons a t ih => rw [List.flatMap_cons, List.foldl_append, List.foldl_cons, ih]

theorem countP_pointwise {α : Type} (l : List α) (p q : α → Bool)
    (h : ∀ a ∈ l, p a = q a) : l.countP p = l.countP q := by
  induction l with
  | nil => rfl
  | cons a t ih =>
    rw [List.countP_cons, List.countP_cons, h a (List.mem_cons_self a t),
      ih (fun b hb => h b (List.mem_cons_of_mem a hb))]

theorem bump_nodup (acc : List (String × Nat)) (h : (acc.map Prod.fst).Nodup) (k : String) :
    ((bump acc k).map Prod.fst).Nodup := by
  unfold bump
  by_cases hany : acc.any (fun kv => kv.1 == k)
  · rw [if_pos hany]
    have : (acc.map (fun kv => if kv.1 == k then (kv.1, kv.2 + 1) else kv)).map Prod.fst =
        acc.map Prod.fst := by
      rw [List.map_map]
      apply List.map_congr_left
      intro kv _
      by_cases hk : kv.1 = k <;> simp [hk]
    rw [this]
    exact h
  · rw [if_neg hany]
    have hk : k ∉ acc.map Prod.fst := by
      intro hmem
      obtain ⟨kv, hkv, hfst⟩ := List.mem_map.mp hmem
      exact hany (List.any_eq_true.mpr ⟨kv, hkv, by simp [hfst]⟩)
    simp only [List.map_append, List.map_cons, List.map_nil]
    rw [List.nodup_append]
    exact ⟨h, List.nodup_singleton k, by simpa using hk⟩

theorem bump_fold_nodup (keys : List String) :
    ∀ (acc : List (String × Nat)), (acc.map Prod.fst).Nodup →
      ((keys.foldl bump acc).map Prod.fst).Nodup := by
  induction keys with
  | nil => exact fun acc h => h
  | cons k rest ih =>
    intro acc h
    rw [List.foldl_cons]
    exact ih (bump acc k) (bump_nodup acc h k)

theorem lookup_filter_val (l : List (String × Nat)) (hnd : (l.map Prod.fst).Nodup)
    (k : String) (p : Nat → Bool) :
    listLookup (l.filter (fun kv => p kv.2)) k =
      match listLookup l k with
      | some v => if p v then some v else none
      | none => none := by
  induction l with
  | nil => rfl
  | cons kv t ih =>
    rw [List.map_cons] at hnd
    obtain ⟨hk, ht⟩ := List.nodup_cons.mp hnd
    by_cases hkk : kv.1 = k
    · have hlk : listLookup (kv :: t) k = some kv.2 := by
        unfold listLookup
        simp [List.find?_cons_of_pos, hkk]
      rw [hlk]
      by_cases hp : p kv.2
      · rw [List.filter_cons_of_pos (by simpa using hp)]
        unfold listLookup
        simp [List.find?_cons_of_pos, hkk, hp]
      · rw [List.filter_cons_of_neg (by simpa using hp)]
        have hnone : listLookup (t.filter (fun kv2 => p kv2.2)) k = none := by
          unfold listLookup
          have : (t.filter (fun kv2 => p kv2.2)).find? (fun kv2 => kv2.1 == k) = none := by
            rw [List.find?_eq_none]
            intro kv2 hkv2 hpkv2
            apply hk
            have h1 : kv2.1 = k := by simpa using hpkv2
            rw [hkk, ← h1]
            exact List.mem_map_of_mem Prod.fst (List.mem_filter.mp hkv2).1
          rw [this]
          rfl
        rw [hnone]
        simp [hp]
    · have hstep : listLookup (kv :: t) k = listLookup t k := by
        unfold listLookup
        simp [List.find?_cons_of_neg, hkk]
      rw [hstep, ← ih ht]
      by_cases hp : p kv.2
      · rw [List.filter_cons_of_pos (by simpa using hp)]
        unfold listLookup
        simp [List.find?_cons_of_neg, hkk]
      · rw [List.filter_cons_of_neg (by simpa using hp)]

/-- Count of hits on keyword kid2 tallied by the co-occurrence query for
kid1: one per pair of has_keyword edges with a shared publication source,
one into kid1 and one into kid2. -/
theorem co_occurrence_count (g : KG) (hnd : g.nodeIds.Nodup)
    (hsrc : ∀ e ∈ g.edges, e.source ∈ g.nodeIds) (kid1 kid2 : String) (hne : kid2 ≠ kid1) :
    ((((g.allEdges.filter
        (fun e => e.relationship_type == "has_keyword" && e.target == kid1)).map
          (fun e => e.source)).flatMap
      (fun pid => ((g.edgesFrom pid).filter
        (fun e => e.relationship_type == "has_keyword" && e.target != kid1)).map
          (fun e => e.target))).count kid2) =
    (g.edges.map (fun x => g.edges.countP (fun y =>
      (x.relationship_type == "has_keyword" && x.target == kid1) &&
        ((y.relationship_type == "has_keyword" && y.target == kid2) &&
          y.source == x.source)))).sum := by
  have h_per_pid : ∀ pid : String,
      ((((g.edgesFrom pid).filter
        (fun e => e.relationship_type == "has_keyword" && e.target != kid1)).map
          (fun e => e.target)).count kid2) =
      g.edges.countP (fun y =>
        (y.relationship_type == "has_keyword" && y.target == kid2) &&
          y.source == pid) := by
    intro pid
    show (((g.edgesFrom pid).filter
      (fun e => e.relationship_type == "has_keyword" && e.target != kid1)).map
        (fun e => e.target)).countP (fun y => y == kid2) = _
    rw [List.countP_map, List.countP_filter]
    unfold KG.edgesFrom
    rw [(adjOrder_perm _).countP_eq]
    unfold KG.outEdges
    rw [List.countP_filter]
    apply countP_pointwise
    intro e _
    cases hb : e.target == kid2 with
    | false => simp [Function.comp, hb]
    | true =>
      have het : e.target = kid2 := by simpa using hb
      have hd : (e.target != kid1) = true := by
        rw [het]
        simp [bne, hne]
      simp [Function.comp, hb, hd]
  rw [List.count_flatMap]
  have hmapped : (((g.allEdges.filter
      (fun e => e.relationship_type == "has_keyword" && e.target == kid1)).map
        (fun e => e.source)).map
      ((fun l => List.count kid2 l) ∘ (fun pid => ((g.edgesFrom pid).filter
        (fun e => e.relationship_type == "has_keyword" && e.target != kid1)).map
          (fun e => e.target)))) =
      ((g.allEdges.filter
        (fun e => e.relationship_type == "has_keyword" && e.target == kid1)).map
        (fun x => g.edges.countP (fun y =>
          (y.relationship_type == "has_keyword" && y.target == kid2) &&
            y.source == x.source))) := by
    rw [List.map_map]
    apply List.map_congr_left
    intro x _
    exact h_per_pid x.source
  rw [hmapped]
  have hperm : List.Perm
      (g.allEdges.filter (fun e => e.relationship_type == "has_keyword" && e.target == kid1))
      (g.edges.filter (fun e => e.relationship_type == "has_keyword" && e.target == kid1)) :=
    (allEdges_perm g hnd hsrc).filter _
  rw [(hperm.map _).sum_eq]
  rw [sum_map_filter_eq]
  apply congrArg
  apply List.map_congr_left
  intro x _
  rw [if_countP_absorb]

/-- The symmetric double count is invariant under swapping the two
keyword ids. -/
theorem co_occurrence_swap (g : KG) (kid1 kid2 : String) :
    (g.edges.map (fun x => g.edges.countP (fun y =>
      (x.relationship_type == "has_keyword" && x.target == kid1) &&
        ((y.relationship_type == "has_keyword" && y.target == kid2) &&
          y.source == x.source)))).sum =
    (g.edges.map (fun x => g.edges.countP (fun y =>
      (x.relationship_type == "has_keyword" && x.target == kid2) &&
        ((y.relationship_type == "has_keyword" && y.target == kid1) &&
          y.source == x.source)))).sum := by
  rw [sum_countP_swap]
  apply congrArg
  apply List.map_congr_left
  intro z _
  apply countP_pointwise
  intro w _
  rw [strBeqComm w.source z.source]
  by_cases h1 : w.relationship_type = "has_keyword" &&  w.target == kid1
  all_goals by_cases h2 : z.relationship_type = "has_keyword" && z.target == kid2
  all_goals simp_all
  all_goals rw [Bool.and_left_comm]

/-- C5: keyword co-occurrence is symmetric.  When both keywords resolve to
present nodes, the count the query for A reports for B(s id) equals the
count the query for B reports for A, at any threshold, including presence
in the filtered result (listLookup returns none exactly when the keyword
is absent from the reported dictionary). -/
theorem C5_keyword_co_occurrence_symmetric (g : KG) (kwA kwB : String) (t : Nat)
    (hnd : g.nodeIds.Nodup) (hsrc : ∀ e ∈ g.edges, e.source ∈ g.nodeIds)
    (hA : keywordIdOf kwA ∈ g.nodeIds) (hB : keywordIdOf kwB ∈ g.nodeIds) :
    ∀ rA rB, get_keyword_co_occurrence g kwA t = some rA →
      get_keyword_co_occurrence g kwB t = some rB →
      listLookup rA.co_occurring_keywords (keywordIdOf kwB) =
        listLookup rB.co_occurring_keywords (keywordIdOf kwA) := by
  intro rA rB hra hrb
  unfold get_keyword_co_occurrence at hra hrb
  rw [if_pos hA] at hra
  rw [if_pos hB] at hrb
  cases hra
  cases hrb
  by_cases hkk : keywordIdOf kwA = keywordIdOf kwB
  · rw [hkk]
  · have htally : ∀ kid : String,
        (((g.allEdges.filter
            (fun e => e.relationship_type == "has_keyword" && e.target == kid)).map
              (fun e => e.source)).foldl
          (fun acc pid =>
            ((g.edgesFrom pid).filter
              (fun e => e.relationship_type == "has_keyword" && e.target != kid)).foldl
              (fun acc2 e => bump acc2 e.target) acc)
          []) =
        ((((g.allEdges.filter
            (fun e => e.relationship_type == "has_keyword" && e.target == kid)).map
              (fun e => e.source)).flatMap
          (fun pid => ((g.edgesFrom pid).filter
            (fun e => e.relationship_type == "has_keyword" && e.target != kid)).map
              (fun e => e.target))).foldl bump []) := by
      intro kid
      rw [foldl_flatMap]
      congr 1
      funext acc pid
      rw [List.foldl_map]
    rw [htally (keywordIdOf kwA), htally (keywordIdOf kwB)]
    rw [lookup_filter_val _ (bump_fold_nodup _ [] List.nodup_nil) (keywordIdOf kwB)
      (fun v => t ≤ v)]
    rw [lookup_filter_val _ (bump_fold_nodup _ [] List.nodup_nil) (keywordIdOf kwA)
      (fun v => t ≤ v)]
    rw [bump_fold_lookup _ [] (fun kv h => absurd h (List.not_mem_nil kv)) (keywordIdOf kwB)]
    rw [bump_fold_lookup _ [] (fun kv h => absurd h (List.not_mem_nil kv)) (keywordIdOf kwA)]
    have hcnt : ((((g.allEdges.filter
        (fun e => e.relationship_type == "has_keyword" && e.target == keywordIdOf kwA)).map
          (fun e => e.source)).flatMap
        (fun pid => ((g.edgesFrom pid).filter
          (fun e => e.relationship_type == "has_keyword" &&
            e.target != keywordIdOf kwA)).map
            (fun e => e.target))).count (keywordIdOf kwB)) =
        ((((g.allEdges.filter
        (fun e => e.relationship_type == "has_keyword" && e.target == keywordIdOf kwB)).map
          (fun e => e.source)).flatMap
        (fun pid => ((g.edgesFrom pid).filter
          (fun e => e.relationship_type == "has_keyword" &&
            e.target != keywordIdOf kwB)).map
            (fun e => e.target))).count (keywordIdOf kwA)) := by
      rw [co_occurrence_count g hnd hsrc (keywordIdOf kwA) (keywordIdOf kwB)
        (fun h => hkk h.symm)]
      rw [co_occurrence_count g hnd hsrc (keywordIdOf kwB) (keywordIdOf kwA) hkk]
      exact co_occurrence_swap g (keywordIdOf kwA) (keywordIdOf kwB)
    rw [hcnt]
    have hnil : ∀ k : String, listLookup [] k = none := fun k => rfl
    simp only [hnil]

/-- Witness for C5 on a two-record build where k1 and k2 share both
publications. -/
theorem C5_witness :
    listLookup (⟨"k1", [("keyword_k2", 2)], 2⟩ : KwResult).co_occurring_keywords
        (keywordIdOf "k2") =
      listLookup (⟨"k2", [("keyword_k1", 2)], 2⟩ : KwResult).co_occurring_keywords
        (keywordIdOf "k1") :=
  C5_keyword_co_occurrence_symmetric
    (build_from_publications
      [{ index := 0, title := "T1", keywords := ["k1", "k2"] },
       { index := 1, title := "T2", keywords := ["k2", "k1", "k3"] }])
    "k1" "k2" 2 (by decide) (by decide) (by decide) (by decide)
    ⟨"k1", [("keyword_k2", 2)], 2⟩ ⟨"k2", [("keyword_k1", 2)], 2⟩ (by decide) (by decide)

end NasaKG

namespace NasaKG

theorem foldl_pres {σ α : Type} (P : σ → Prop) (f : σ → α → σ)
    (hf : ∀ s a, P s → P (f s a)) : ∀ (l : List α) (s : σ), P s → P (l.foldl f s) := by
  intro l
  induction l with
  | nil => exact fun s h => h
  | cons a t ih => exact fun s h => ih (f s a) (hf s a h)

theorem foldl_edges_append {α : Type} (f : BuildSt → α → BuildSt) (block : α → List Edge)
    (hf : ∀ st a, (f st a).g.edges = st.g.edges ++ block a) :
    ∀ (l : List α) (st : BuildSt), (l.foldl f st).g.edges = st.g.edges ++ l.flatMap block := by
  intro l
  induction l with
  | nil => intro st; simp
  | cons a t ih =>
    intro st
    rw [List.foldl_cons, ih (f st a), hf st a, List.flatMap_cons, List.append_assoc]

theorem flatMap_if_nil {α : Type} (l : List α) (p : α → Bool) (gf : α → Edge) :
    l.flatMap (fun a => if p a then [] else [gf a]) = (l.filter (fun a => !p a)).map gf := by
  induction l with
  | nil => rfl
  | cons a t ih =>
    by_cases h : p a
    · rw [List.flatMap_cons, List.filter_cons_of_neg (by simp [h]), if_pos h, ih]
      rfl
    · rw [List.flatMap_cons, List.filter_cons_of_pos (by simp [h]), if_neg h, List.map_cons, ih]
      rfl

theorem processAuthor_edges (pid : String) (st : BuildSt) (a : String) :
    (processAuthor pid st a).g.edges =
      st.g.edges ++ (if isBlankName a then []
        else [⟨pid, authorIdOf a, "authored_by", 1, []⟩]) := by
  unfold processAuthor
  by_cases h : isBlankName a
  · simp [h]
  · by_cases hs : authorIdOf a ∈ st.authors_seen <;>
      simp [h, hs, add_edge_edges, add_node_edges]

theorem processKeyword_edges (pid : String) (st : BuildSt) (k : String) :
    (processKeyword pid st k).g.edges =
      st.g.edges ++ (if isBlankName k then []
        else [⟨pid, keywordIdOf k, "has_keyword", 1, []⟩]) := by
  unfold processKeyword
  by_cases h : isBlankName k
  · simp [h]
  · by_cases hs : keywordIdOf k ∈ st.keywords_seen <;>
      simp [h, hs, add_edge_edges, add_node_edges]

theorem processJournal_edges (pid : String) (st : BuildSt) (j : Option String) :
    (processJournal pid st j).g.edges =
      st.g.edges ++ (if strTruthy j then
        [⟨pid, journalIdOf (j.getD ""), "published_in", 1, []⟩] else []) := by
  unfold processJournal
  by_cases h : strTruthy j
  · by_cases hs : journalIdOf (j.getD "") ∈ st.journals_seen <;>
      simp [h, hs, add_edge_edges, add_node_edges]
  · simp [h]

theorem processTheme_edges (pid : String) (st : BuildSt) (th : Option String) :
    (processTheme pid st th).g.edges =
      st.g.edges ++ (if strTruthy th then
        [⟨pid, themeIdOf (th.getD ""), "has_theme", 1, []⟩] else []) := by
  unfold processTheme
  by_cases h : strTruthy th
  · by_cases hs : themeIdOf (th.getD "") ∈ st.themes_seen <;>
      simp [h, hs, add_edge_edges, add_node_edges]
  · simp [h]

theorem processRecord_edges (st : BuildSt) (r : PubRecord) :
    (processRecord st r).g.edges = st.g.edges ++ recEdges r := by
  unfold processRecord recEdges
  rw [foldl_edges_append (processKeyword (pubIdOf r.index))
    (fun k => if isBlankName k then [] else [⟨pubIdOf r.index, keywordIdOf k, "has_keyword", 1, []⟩])
    (processKeyword_edges (pubIdOf r.index)) r.keywords]
  rw [processTheme_edges, processJournal_edges]
  rw [foldl_edges_append (processAuthor (pubIdOf r.index))
    (fun a => if isBlankName a then [] else [⟨pubIdOf r.index, authorIdOf a, "authored_by", 1, []⟩])
    (processAuthor_edges (pubIdOf r.index)) r.authors]
  rw [add_node_edges]
  rw [flatMap_if_nil r.authors isBlankName
    (fun a => ⟨pubIdOf r.index, authorIdOf a, "authored_by", 1, []⟩)]
  rw [flatMap_if_nil r.keywords isBlankName
    (fun k => ⟨pubIdOf r.index, keywordIdOf k, "has_keyword", 1, []⟩)]
  unfold recAuthorIds recKeywordIds
  simp [List.map_map, List.append_assoc, Function.comp_def]

theorem phase1_edges (recs : List PubRecord) :
    (phase1 recs).edges = recs.flatMap recEdges := by
  unfold phase1
  have h := foldl_edges_append processRecord recEdges processRecord_edges recs
    ⟨KG.empty, [], [], [], []⟩
  rw [h]
  rfl

theorem recEdges_shape (r : PubRecord) (e : Edge) (he : e ∈ recEdges r) :
    e.source = pubIdOf r.index ∧ e.relationship_type ≠ "co_authors" ∧
      (e.relationship_type = "authored_by" → ∃ x, e.target = "author_" ++ x) := by
  unfold recEdges at he
  rcases List.mem_append.mp he with h | h
  · obtain ⟨aid, haid, rfl⟩ := List.mem_map.mp h
    refine ⟨rfl, by simp, ?_⟩
    intro _
    obtain ⟨a, _, rfl⟩ := List.mem_map.mp haid
    exact ⟨normalize a, rfl⟩
  rcases List.mem_append.mp h with h | h
  · by_cases hj : strTruthy r.journal
    · rw [if_pos hj] at h
      have : e = ⟨pubIdOf r.index, journalIdOf (r.journal.getD ""), "published_in", 1, []⟩ :=
        List.mem_singleton.mp h
      subst this
      exact ⟨rfl, by simp, by simp⟩
    · rw [if_neg hj] at h
      exact absurd h (List.not_mem_nil e)
  rcases List.mem_append.mp h with h | h
  · by_cases ht : strTruthy r.theme
    · rw [if_pos ht] at h
      have : e = ⟨pubIdOf r.index, themeIdOf (r.theme.getD ""), "has_theme", 1, []⟩ :=
        List.mem_singleton.mp h
      subst this
      exact ⟨rfl, by simp, by simp⟩
    · rw [if_neg ht] at h
      exact absurd h (List.not_mem_nil e)
  · obtain ⟨kid, _, rfl⟩ := List.mem_map.mp h
    exact ⟨rfl, by simp, by simp⟩

end NasaKG

namespace NasaKG

theorem add_node_prefA {g : KG} {i : String} {d : NodeData} (hg : AuthorNodesPrefixed g)
    (hd : d.node_type = "author" → ∃ x, i = "author_" ++ x) :
    AuthorNodesPrefixed (g.add_node i d) := by
  unfold KG.add_node
  split
  · intro p hp nd hnd ha
    obtain ⟨q, hq, rfl⟩ := List.mem_map.mp hp
    by_cases hqi : q.1 = i
    · simp only [hqi, beq_self_eq_true, if_pos] at hnd ⊢
      simp only [Option.some.injEq] at hnd
      exact hd (by rw [hnd]; exact ha)
    · simp only [beq_iff_eq, hqi, if_neg, if_false] at hnd ⊢
      exact hg q hq nd hnd ha
  · intro p hp nd hnd ha
    rcases List.mem_append.mp hp with h | h
    · exact hg p h nd hnd ha
    · have : p = (i, some d) := List.mem_singleton.mp h
      subst this
      simp only [Option.some.injEq] at hnd
      exact hd (by rw [hnd]; exact ha)

theorem add_edge_nodes_cases (g : KG) (e : Edge) :
    ∀ p ∈ (g.add_edge e).nodes, p ∈ g.nodes ∨ p.2 = none := by
  intro p hp
  simp only [KG.add_edge] at hp
  by_cases h1 : e.source ∈ g.nodeIds
  · rw [if_pos h1] at hp
    by_cases h2 : e.target ∈ g.nodes.map Prod.fst
    · rw [if_pos h2] at hp
      exact Or.inl hp
    · rw [if_neg h2] at hp
      rcases List.mem_append.mp hp with h | h
      · exact Or.inl h
      · rw [List.mem_singleton.mp h]
        exact Or.inr rfl
  · rw [if_neg h1] at hp
    by_cases h2 : e.target ∈ (g.nodes ++ [(e.source, none)]).map Prod.fst
    · rw [if_pos h2] at hp
      rcases List.mem_append.mp hp with h | h
      · exact Or.inl h
      · rw [List.mem_singleton.mp h]
        exact Or.inr rfl
    · rw [if_neg h2] at hp
      rcases List.mem_append.mp hp with h | h
      · rcases List.mem_append.mp h with h3 | h3
        · exact Or.inl h3
        · rw [List.mem_singleton.mp h3]
          exact Or.inr rfl
      · rw [List.mem_singleton.mp h]
        exact Or.inr rfl

theorem add_edge_prefA {g : KG} (e : Edge) (hg : AuthorNodesPrefixed g) :
    AuthorNodesPrefixed (g.add_edge e) := by
  intro p hp nd hnd ha
  rcases add_edge_nodes_cases g e p hp with h | h
  · exact hg p h nd hnd ha
  · rw [h] at hnd
    exact absurd hnd (by simp)

theorem processRecord_prefA (st : BuildSt) (r : PubRecord)
    (h : AuthorNodesPrefixed st.g) : AuthorNodesPrefixed (processRecord st r).g := by
  unfold processRecord
  have hstep1 : AuthorNodesPrefixed ({ st with
      g := st.g.add_node (pubIdOf r.index) ⟨pubLabel r.title, "publication", pubProps r, 1⟩} :
        BuildSt).g :=
    add_node_prefA h (by intro hx; exact absurd hx (by simp))
  have hauth : ∀ (st2 : BuildSt), AuthorNodesPrefixed st2.g →
      AuthorNodesPrefixed ((r.authors.foldl (processAuthor (pubIdOf r.index)) st2).g) := by
    intro st2 h2
    apply foldl_pres (fun s : BuildSt => AuthorNodesPrefixed s.g)
      (processAuthor (pubIdOf r.index)) ?_ r.authors st2 h2
    intro s a hs
    unfold processAuthor
    by_cases hb : isBlankName a
    · simpa [hb] using hs
    · rw [if_neg hb]
      by_cases hseen : authorIdOf a ∈ s.authors_seen <;>
        simp only [hseen, if_pos, if_neg, if_false, if_true] <;>
        apply add_edge_prefA
      · exact hs
      · exact add_node_prefA hs (fun _ => ⟨normalize a, rfl⟩)
  have hjour : ∀ (st2 : BuildSt), AuthorNodesPrefixed st2.g →
      AuthorNodesPrefixed ((processJournal (pubIdOf r.index) st2 r.journal).g) := by
    intro st2 h2
    unfold processJournal
    by_cases hj : strTruthy r.journal
    · rw [if_pos hj]
      by_cases hseen : journalIdOf (r.journal.getD "") ∈ st2.journals_seen <;>
        simp only [hseen, if_pos, if_neg, if_false, if_true] <;>
        apply add_edge_prefA
      · exact h2
      · exact add_node_prefA h2 (by intro hx; exact absurd hx (by simp))
    · simpa [hj] using h2
  have hth : ∀ (st2 : BuildSt), AuthorNodesPrefixed st2.g →
      AuthorNodesPrefixed ((processTheme (pubIdOf r.index) st2 r.theme).g) := by
    intro st2 h2
    unfold processTheme
    by_cases hj : strTruthy r.theme
    · rw [if_pos hj]
      by_cases hseen : themeIdOf (r.theme.getD "") ∈ st2.themes_seen <;>
        simp only [hseen, if_pos, if_neg, if_false, if_true] <;>
        apply add_edge_prefA
      · exact h2
      · exact add_node_prefA h2 (by intro hx; exact absurd hx (by simp))
    · simpa [hj] using h2
  have hkw : ∀ (st2 : BuildSt), AuthorNodesPrefixed st2.g →
      AuthorNodesPrefixed ((r.keywords.foldl (processKeyword (pubIdOf r.index)) st2).g) := by
    intro st2 h2
    apply foldl_pres (fun s : BuildSt => AuthorNodesPrefixed s.g)
      (processKeyword (pubIdOf r.index)) ?_ r.keywords st2 h2
    intro s k hs
    unfold processKeyword
    by_cases hb : isBlankName k
    · simpa [hb] using hs
    · rw [if_neg hb]
      by_cases hseen : keywordIdOf k ∈ s.keywords_seen <;>
        simp only [hseen, if_pos, if_neg, if_false, if_true] <;>
        apply add_edge_prefA
      · exact hs
      · exact add_node_prefA hs (by intro hx; exact absurd hx (by simp))
  exact hkw _ (hth _ (hjour _ (hauth _ hstep1)))

theorem phase1_prefA (recs : List PubRecord) : AuthorNodesPrefixed (phase1 recs) := by
  unfold phase1
  have : AuthorNodesPrefixed (⟨KG.empty, [], [], [], []⟩ : BuildSt).g := by
    intro p hp
    exact absurd hp (List.not_mem_nil p)
  exact foldl_pres (fun s : BuildSt => AuthorNodesPrefixed s.g) processRecord
    processRecord_prefA recs _ this

end NasaKG

namespace NasaKG

theorem add_edge_nodes_ext (h : KG) (e : Edge) :
    ∃ st, (h.add_edge e).nodes = h.nodes ++ st ∧ ∀ p ∈ st, p.2 = (none : Option NodeData) := by
  simp only [KG.add_edge]
  by_cases h1 : e.source ∈ h.nodeIds
  · rw [if_pos h1]
    by_cases h2 : e.target ∈ h.nodes.map Prod.fst
    · rw [if_pos h2]
      exact ⟨[], by simp, by simp⟩
    · rw [if_neg h2]
      exact ⟨[(e.target, none)], rfl, by simp⟩
  · rw [if_neg h1]
    by_cases h2 : e.target ∈ (h.nodes ++ [(e.source, none)]).map Prod.fst
    · rw [if_pos h2]
      exact ⟨[(e.source, none)], rfl, by simp⟩
    · rw [if_neg h2]
      exact ⟨[(e.source, none), (e.target, none)], by simp, by simp⟩

theorem addCo_ext (g : KG) :
    (∃ en, (addCoAuthorship g).nodes = g.nodes ++ en ∧
        ∀ p ∈ en, p.2 = (none : Option NodeData)) ∧
      ∃ ee, (addCoAuthorship g).edges = g.edges ++ ee ∧
        ∀ e ∈ ee, e.relationship_type = "co_authors" := by
  unfold addCoAuthorship
  have hone : ∀ (h : KG) (e : Edge), e.relationship_type = "co_authors" →
      ((∃ en, h.nodes = g.nodes ++ en ∧ ∀ p ∈ en, p.2 = (none : Option NodeData)) ∧
        ∃ ee, h.edges = g.edges ++ ee ∧ ∀ e2 ∈ ee, e2.relationship_type = "co_authors") →
      ((∃ en, (h.add_edge e).nodes = g.nodes ++ en ∧
          ∀ p ∈ en, p.2 = (none : Option NodeData)) ∧
        ∃ ee, (h.add_edge e).edges = g.edges ++ ee ∧
          ∀ e2 ∈ ee, e2.relationship_type = "co_authors") := by
    intro h e hrel ⟨⟨en, hen, hall⟩, ⟨ee, hee, heall⟩⟩
    constructor
    · obtain ⟨st, hst, hstall⟩ := add_edge_nodes_ext h e
      refine ⟨en ++ st, ?_, ?_⟩
      · rw [hst, hen, List.append_assoc]
      · intro p hp
        rcases List.mem_append.mp hp with hh | hh
        · exact hall p hh
        · exact hstall p hh
    · refine ⟨ee ++ [e], ?_, ?_⟩
      · rw [add_edge_edges, hee, List.append_assoc]
      · intro e2 he2
        rcases List.mem_append.mp he2 with hh | hh
        · exact heall e2 hh
        · rw [List.mem_singleton.mp hh]
          exact hrel
  apply foldl_pres (fun h : KG =>
    (∃ en, h.nodes = g.nodes ++ en ∧ ∀ p ∈ en, p.2 = (none : Option NodeData)) ∧
      ∃ ee, h.edges = g.edges ++ ee ∧ ∀ e2 ∈ ee, e2.relationship_type = "co_authors")
  · intro h pid hp
    exact foldl_pres (fun h2 : KG =>
      (∃ en, h2.nodes = g.nodes ++ en ∧ ∀ p ∈ en, p.2 = (none : Option NodeData)) ∧
        ∃ ee, h2.edges = g.edges ++ ee ∧ ∀ e2 ∈ ee, e2.relationship_type = "co_authors")
      (fun h2 pr => h2.add_edge (mkCoEdge pr))
      (fun h2 pr hp2 => hone h2 (mkCoEdge pr) rfl hp2)
      (pairsOf (authorsOfPub h pid)) h hp
  · exact ⟨⟨[], by simp, by simp⟩, ⟨[], by simp, by simp⟩⟩

/-- C10: in a built graph every edge joining two author nodes is a
co_authors edge; the edges_to_remove cleanup list of
_get_collaboration_stats is therefore empty, the frozen subgraph view is
never mutated, and the collaboration statistics succeed. -/
theorem C10_author_edges_are_co_authors (recs : List PubRecord) :
    (∀ e ∈ (build_from_publications recs).edges,
        e.source ∈ authorNodeIds (build_from_publications recs) →
        e.target ∈ authorNodeIds (build_from_publications recs) →
        e.relationship_type = "co_authors") ∧
      edgesToRemove (build_from_publications recs) = [] ∧
      (_get_collaboration_stats (build_from_publications recs)).isSome = true := by
  obtain ⟨⟨en, hen, henall⟩, ⟨ee, hee, heeall⟩⟩ := addCo_ext (phase1 recs)
  have hprefAfin : AuthorNodesPrefixed (build_from_publications recs) := by
    intro p hp nd hnd ha
    unfold build_from_publications at hp
    rw [hen] at hp
    rcases List.mem_append.mp hp with hh | hh
    · exact phase1_prefA recs p hh nd hnd ha
    · rw [henall p hh] at hnd
      exact absurd hnd (by simp)
  have hmain : ∀ e ∈ (build_from_publications recs).edges,
      e.source ∈ authorNodeIds (build_from_publications recs) →
      e.target ∈ authorNodeIds (build_from_publications recs) →
      e.relationship_type = "co_authors" := by
    intro e he hs _
    unfold build_from_publications at he
    rw [hee] at he
    rcases List.mem_append.mp he with hh | hh
    · exfalso
      rw [phase1_edges] at hh
      obtain ⟨r, _, her⟩ := List.mem_flatMap.mp hh
      obtain ⟨hsrc, _, _⟩ := recEdges_shape r e her
      obtain ⟨p, hp, hfst⟩ := List.mem_map.mp
        (show e.source ∈ (((build_from_publications recs).nodes.filter
          (fun q => typeIs q.2 "author")).map Prod.fst) from hs)
      obtain ⟨hpmem, hptype⟩ := List.mem_filter.mp hp
      cases hpd : p.2 with
      | none => rw [hpd] at hptype; simp [typeIs] at hptype
      | some nd =>
        rw [hpd] at hptype
        have hnda : nd.node_type = "author" := by simpa [typeIs] using hptype
        obtain ⟨x, hx⟩ := hprefAfin p hpmem nd hpd hnda
        rw [hfst] at hx
        rw [hsrc] at hx
        exact pub_ne_author (toString r.index) x hx
    · exact heeall e hh
  have hremove : edgesToRemove (build_from_publications recs) = [] := by
    unfold edgesToRemove
    have hfil : (inducedEdges (build_from_publications recs)
        (authorNodeIds (build_from_publications recs))).filter
        (fun e => e.relationship_type != "co_authors") = [] := by
      rw [List.filter_eq_nil_iff]
      intro e hein
      obtain ⟨hemem, hcond⟩ := List.mem_filter.mp hein
      have hs : e.source ∈ authorNodeIds (build_from_publications recs) :=
        List.mem_of_elem_eq_true ((Bool.and_eq_true _ _).mp hcond).1
      have ht2 : e.target ∈ authorNodeIds (build_from_publications recs) :=
        List.mem_of_elem_eq_true ((Bool.and_eq_true _ _).mp hcond).2
      have := hmain e hemem hs ht2
      simp [this]
    rw [hfil]
    rfl
  refine ⟨hmain, hremove, ?_⟩
  unfold _get_collaboration_stats
  rw [hremove]
  rfl

end NasaKG

namespace NasaKG

/-- Witness for C10 on a two-author build, instantiated at its single
co_authors edge. -/
theorem C10_witness :
    (⟨"author_alice", "author_bob", "co_authors", 1, []⟩ : Edge).relationship_type =
        "co_authors" ∧
      edgesToRemove (build_from_publications
        [{ index := 0, title := "T1", authors := ["Alice", "Bob"] }]) = [] ∧
      (_get_collaboration_stats (build_from_publications
        [{ index := 0, title := "T1", authors := ["Alice", "Bob"] }])).isSome = true := by
  obtain ⟨h1, h2, h3⟩ := C10_author_edges_are_co_authors
    [{ index := 0, title := "T1", authors := ["Alice", "Bob"] }]
  exact ⟨h1 ⟨"author_alice", "author_bob", "co_authors", 1, []⟩ (by decide) (by decide)
    (by decide), h2, h3⟩

end NasaKG

namespace NasaKG

theorem filter_restrict_eq (es : List Edge) (P : Edge → Bool) (tg : String)
    (havoid : ∀ x ∈ es, P x = true → x.target ≠ tg) :
    (es.filter (fun x => x.target != tg)).filter P = es.filter P := by
  rw [List.filter_filter]
  apply List.filter_congr
  intro x hx
  cases hP : P x with
  | false => simp
  | true => simp [bne, havoid x hx hP]

theorem adjOrder_filter_eq (P : Edge → Bool) :
    ∀ (n : Nat) (es : List Edge), es.length ≤ n →
      (∀ e1 ∈ es, ∀ e2 ∈ es, e1.target = e2.target → P e1 = P e2) →
      ((es.filter P).map Edge.target).Nodup →
      (adjOrder es).filter P = es.filter P := by
  intro n
  induction n with
  | zero =>
    intro es h _ _
    have : es = [] := List.eq_nil_of_length_eq_zero (Nat.le_zero.mp h)
    subst this
    rfl
  | succ m ih =>
    intro es h hdet hnd
    cases es with
    | nil => rfl
    | cons e es =>
      have hlen : es.length ≤ m := by
        simp only [List.length_cons] at h
        omega
      have hsame : ∀ x ∈ es, x.target = e.target → P x = P e := fun x hx hxt =>
        hdet x (List.mem_cons_of_mem e hx) e (List.mem_cons_self e es) hxt
      have hdet2 : ∀ e1 ∈ es, ∀ e2 ∈ es, e1.target = e2.target → P e1 = P e2 :=
        fun e1 h1 e2 h2 => hdet e1 (List.mem_cons_of_mem e h1) e2 (List.mem_cons_of_mem e h2)
      rw [adjOrder_cons]
      cases hPe : P e with
      | true =>
        have hnd2 : ((e :: es).filter P).map Edge.target =
            e.target :: (es.filter P).map Edge.target := by
          rw [List.filter_cons_of_pos hPe, List.map_cons]
        rw [hnd2] at hnd
        obtain ⟨hnotin, hndtail⟩ := List.nodup_cons.mp hnd
        have hblock : es.filter (fun x => x.target == e.target) = [] := by
          rw [List.filter_eq_nil_iff]
          intro x hx hbeq
          have hxt : x.target = e.target := by simpa using hbeq
          have hPx : P x = true := (hsame x hx hxt).trans hPe
          exact hnotin (hxt ▸ List.mem_map_of_mem Edge.target (List.mem_filter.mpr ⟨hx, hPx⟩))
        have hrest : es.filter (fun x => x.target != e.target) = es := by
          rw [List.filter_eq_self]
          intro x hx
          have : ¬(x.target == e.target) = true := by
            rw [List.filter_eq_nil_iff] at hblock
            exact hblock x hx
          simpa [bne] using this
        rw [hblock, hrest, List.nil_append, List.filter_cons_of_pos hPe,
          List.filter_cons_of_pos hPe, ih es hlen hdet2 hndtail]
      | false =>
        have hPe2 : ¬P e = true := by
          rw [hPe]
          simp
        have hndtail : ((es.filter P).map Edge.target).Nodup := by
          rw [List.filter_cons_of_neg hPe2] at hnd
          exact hnd
        have havoid : ∀ x ∈ es, P x = true → x.target ≠ e.target := by
          intro x hx hPx hxt
          rw [(hsame x hx hxt), hPe] at hPx
          exact Bool.false_ne_true hPx
        have hblockP : (es.filter (fun x => x.target == e.target)).filter P = [] := by
          rw [List.filter_eq_nil_iff]
          intro x hx hPx
          obtain ⟨hxes, hbeq⟩ := List.mem_filter.mp hx
          exact havoid x hxes hPx (by simpa using hbeq)
        have hsub : (((es.filter (fun x => x.target != e.target)).filter P).map
            Edge.target).Nodup := by
          rw [filter_restrict_eq es P e.target havoid]
          exact hndtail
        rw [List.filter_cons_of_neg hPe2, List.filter_cons_of_neg hPe2, List.filter_append,
          hblockP, List.nil_append,
          ih (es.filter (fun x => x.target != e.target))
            (le_trans (List.length_filter_le _ _) hlen)
            (fun e1 h1 e2 h2 => hdet2 e1 (List.mem_of_mem_filter h1) e2
              (List.mem_of_mem_filter h2))
            hsub,
          filter_restrict_eq es P e.target havoid]

theorem pairsOf_mem {α : Type} (l : List α) (a b : α) (h : (a, b) ∈ pairsOf l) :
    a ∈ l ∧ b ∈ l := by
  induction l with
  | nil => exact absurd h (List.not_mem_nil _)
  | cons x xs ih =>
    unfold pairsOf at h
    rcases List.mem_append.mp h with h1 | h1
    · obtain ⟨y, hy, hxy⟩ := List.mem_map.mp h1
      injection hxy with ha hb
      subst ha
      subst hb
      exact ⟨List.mem_cons_self _ _, List.mem_cons_of_mem _ hy⟩
    · obtain ⟨ha, hb⟩ := ih h1
      exact ⟨List.mem_cons_of_mem _ ha, List.mem_cons_of_mem _ hb⟩

theorem pairsOf_count {α : Type} [DecidableEq α] (l : List α) (hnd : l.Nodup) (a b : α)
    (hab : a ≠ b) :
    (pairsOf l).count (a, b) =
      if a ∈ l ∧ b ∈ l ∧ l.indexOf a < l.indexOf b then 1 else 0 := by
  induction l with
  | nil => simp [pairsOf]
  | cons x xs ih =>
    obtain ⟨hx, hxs⟩ := List.nodup_cons.mp hnd
    unfold pairsOf
    rw [List.count_append]
    by_cases hxa : x = a
    · subst hxa
      have hmap : (xs.map (fun b2 => (x, b2))).count (x, b) = xs.count b := by
        rw [List.count_eq_countP, List.count_eq_countP, List.countP_map]
        apply countP_pointwise
        intro y _
        simp [Function.comp, Prod.ext_iff]
      have hrec : (pairsOf xs).count (x, b) = 0 := by
        rw [List.count_eq_zero]
        intro hmem
        exact hx (pairsOf_mem xs x b hmem).1
      rw [hmap, hrec, Nat.add_zero]
      by_cases hbxs : b ∈ xs
      · rw [List.count_eq_one_of_mem hxs hbxs, if_pos]
        refine ⟨List.mem_cons_self x xs, List.mem_cons_of_mem x hbxs, ?_⟩
        rw [List.indexOf_cons_self, List.indexOf_cons_ne xs hab]
        exact Nat.succ_pos _
      · rw [List.count_eq_zero.mpr hbxs, if_neg]
        intro hcond
        rcases List.mem_cons.mp hcond.2.1 with hh | hh
        · exact hab hh.symm
        · exact hbxs hh
    · by_cases hxb : x = b
      · have hmap : (xs.map (fun b2 => (x, b2))).count (a, b) = 0 := by
          rw [List.count_eq_zero]
          intro hmem
          obtain ⟨y, _, hxy⟩ := List.mem_map.mp hmem
          injection hxy with h1 _
          exact hxa h1
        have hrec : (pairsOf xs).count (a, b) = 0 := by
          rw [List.count_eq_zero]
          intro hmem
          apply hx
          rw [hxb]
          exact (pairsOf_mem xs a b hmem).2
        rw [hmap, hrec, if_neg]
        intro hcond
        have hidx : (x :: xs).indexOf b = 0 := by
          rw [hxb]
          exact List.indexOf_cons_self b xs
        rw [hidx] at hcond
        exact Nat.not_lt_zero _ hcond.2.2
      · have hmap : (xs.map (fun b2 => (x, b2))).count (a, b) = 0 := by
          rw [List.count_eq_zero]
          intro hmem
          obtain ⟨y, _, hxy⟩ := List.mem_map.mp hmem
          injection hxy with h1 _
          exact hxa h1
        rw [hmap, ih hxs, Nat.zero_add]
        by_cases hc : a ∈ xs ∧ b ∈ xs ∧ xs.indexOf a < xs.indexOf b
        · rw [if_pos hc, if_pos]
          refine ⟨List.mem_cons_of_mem x hc.1, List.mem_cons_of_mem x hc.2.1, ?_⟩
          rw [List.indexOf_cons_ne xs hxa, List.indexOf_cons_ne xs hxb]
          omega
        · rw [if_neg hc, if_neg]
          intro hcond
          apply hc
          have ha2 : a ∈ xs := by
            rcases List.mem_cons.mp hcond.1 with hh | hh
            · exact absurd hh.symm hxa
            · exact hh
          have hb2 : b ∈ xs := by
            rcases List.mem_cons.mp hcond.2.1 with hh | hh
            · exact absurd hh.symm hxb
            · exact hh
          refine ⟨ha2, hb2, ?_⟩
          have := hcond.2.2
          rw [List.indexOf_cons_ne xs hxa, List.indexOf_cons_ne xs hxb] at this
          omega

end NasaKG

namespace NasaKG

theorem add_node_nodeIds_sub (g : KG) (i : String) (d : NodeData) :
    ∀ j ∈ (g.add_node i d).nodeIds, j ∈ g.nodeIds ∨ j = i := by
  intro j hj
  rw [add_node_nodeIds] at hj
  by_cases h : i ∈ g.nodeIds
  · rw [if_pos h] at hj
    exact Or.inl hj
  · rw [if_neg h] at hj
    rcases List.mem_append.mp hj with hh | hh
    · exact Or.inl hh
    · exact Or.inr (List.mem_singleton.mp hh)

theorem add_edge_nodeIds_sub (g : KG) (e : Edge) :
    ∀ j ∈ (g.add_edge e).nodeIds, j ∈ g.nodeIds ∨ j = e.source ∨ j = e.target := by
  intro j hj
  obtain ⟨st, hst, _⟩ := add_edge_nodes_ext g e
  unfold KG.nodeIds at hj
  rw [hst, List.map_append] at hj
  rcases List.mem_append.mp hj with hh | hh
  · exact Or.inl hh
  · obtain ⟨p, hp, hfst⟩ := List.mem_map.mp hh
    simp only [KG.add_edge] at hst
    have hpin : p ∈ st := hp
    have : p = (e.source, (none : Option NodeData)) ∨ p = (e.target, (none : Option NodeData)) := by
      by_cases h1 : e.source ∈ g.nodeIds
      · rw [if_pos h1] at hst
        by_cases h2 : e.target ∈ g.nodes.map Prod.fst
        · rw [if_pos h2] at hst
          have : st = [] := by
            exact List.append_cancel_left (hst.symm.trans (List.append_nil g.nodes).symm)
          rw [this] at hpin
          exact absurd hpin (List.not_mem_nil p)
        · rw [if_neg h2] at hst
          have : st = [(e.target, none)] := List.append_cancel_left hst.symm
          rw [this] at hpin
          exact Or.inr (List.mem_singleton.mp hpin)
      · rw [if_neg h1] at hst
        by_cases h2 : e.target ∈ (g.nodes ++ [(e.source, none)]).map Prod.fst
        · rw [if_pos h2] at hst
          have : st = [(e.source, none)] := List.append_cancel_left hst.symm
          rw [this] at hpin
          exact Or.inl (List.mem_singleton.mp hpin)
        · rw [if_neg h2] at hst
          have : st = [(e.source, none), (e.target, none)] := by
            have h3 : g.nodes ++ [(e.source, none)] ++ [(e.target, none)] =
                g.nodes ++ ([(e.source, none)] ++ [(e.target, none)]) := by
              rw [List.append_assoc]
            exact List.append_cancel_left ((h3.symm.trans hst).symm)
          rw [this] at hpin
          rcases List.mem_cons.mp hpin with h | h
          · exact Or.inl h
          · exact Or.inr (List.mem_singleton.mp h)
    rcases this with h | h <;> rw [h] at hfst
    · exact Or.inr (Or.inl hfst.symm)
    · exact Or.inr (Or.inr hfst.symm)

end NasaKG

namespace NasaKG

theorem pubIds_add_node_fresh (g : KG) (i : String) (d : NodeData) (hi : i ∉ g.nodeIds) :
    pubIds (g.add_node i d) =
      pubIds g ++ (if d.node_type == "publication" then [i] else []) := by
  unfold pubIds KG.add_node
  rw [if_neg hi]
  simp only [List.filter_append, List.map_append]
  cases hd : d.node_type == "publication" <;>
    simp [typeIs, hd]

theorem filter_map_update (nodes : List (String × Option NodeData)) (i : String)
    (d : NodeData) (hd : d.node_type ≠ "publication") (hipref : ∀ x, i ≠ "pub_" ++ x)
    (hinv : ∀ p ∈ nodes, typeIs p.2 "publication" = true → ∃ x, p.1 = "pub_" ++ x) :
    ((nodes.map (fun p => if p.1 == i then (p.1, some d) else p)).filter
        (fun p => typeIs p.2 "publication")).map Prod.fst =
      (nodes.filter (fun p => typeIs p.2 "publication")).map Prod.fst := by
  induction nodes with
  | nil => rfl
  | cons p ps ih =>
    have ihx := ih (fun q hq => hinv q (List.mem_cons_of_mem p hq))
    rw [List.map_cons]
    by_cases hpi : p.1 == i
    · rw [if_pos hpi]
      have hpub : typeIs p.2 "publication" = false := by
        cases hval : typeIs p.2 "publication" with
        | false => rfl
        | true =>
          obtain ⟨x, hx⟩ := hinv p (List.mem_cons_self p ps) hval
          have : p.1 = i := by simpa using hpi
          exact absurd (this ▸ hx) (hipref x)
      have hnew : typeIs (some d) "publication" = false := by
        simp [typeIs, hd]
      rw [List.filter_cons_of_neg (by rw [hnew]; simp),
        List.filter_cons_of_neg (by rw [hpub]; simp)]
      exact ihx
    · rw [if_neg hpi]
      cases hval : typeIs p.2 "publication" with
      | false =>
        rw [List.filter_cons_of_neg (by rw [hval]; simp),
          List.filter_cons_of_neg (by rw [hval]; simp)]
        exact ihx
      | true =>
        rw [List.filter_cons_of_pos (by rw [hval]),
          List.filter_cons_of_pos (by rw [hval]), List.map_cons, List.map_cons, ihx]

theorem pubIds_add_node_other (g : KG) (i : String) (d : NodeData)
    (hinv : PubPrefOnly g) (hd : d.node_type ≠ "publication")
    (hipref : ∀ x, i ≠ "pub_" ++ x) :
    pubIds (g.add_node i d) = pubIds g := by
  by_cases hi : i ∈ g.nodeIds
  · unfold pubIds KG.add_node
    rw [if_pos hi]
    exact filter_map_update g.nodes i d hd hipref hinv
  · rw [pubIds_add_node_fresh g i d hi]
    have hne : (d.node_type == "publication") = false := by
      simp [hd]
    rw [hne]
    simp

theorem pubIds_add_edge (g : KG) (e : Edge) : pubIds (g.add_edge e) = pubIds g := by
  obtain ⟨st, hst, hall⟩ := add_edge_nodes_ext g e
  unfold pubIds
  rw [hst, List.filter_append]
  have : st.filter (fun p => typeIs p.2 "publication") = [] := by
    rw [List.filter_eq_nil_iff]
    intro p hp
    rw [hall p hp]
    simp [typeIs]
  rw [this, List.append_nil]

theorem prefOnly_add_node (g : KG) (i : String) (d : NodeData) (hinv : PubPrefOnly g)
    (hd : d.node_type = "publication" → ∃ x, i = "pub_" ++ x) :
    PubPrefOnly (g.add_node i d) := by
  unfold KG.add_node
  split
  · intro p hp ht
    obtain ⟨q, hq, hqp⟩ := List.mem_map.mp hp
    by_cases hqi : q.1 == i
    · rw [if_pos hqi] at hqp
      rw [← hqp] at ht ⊢
      have hdt : d.node_type = "publication" := by simpa [typeIs] using ht
      obtain ⟨x, hx⟩ := hd hdt
      have hq1 : q.1 = i := by simpa using hqi
      exact ⟨x, show q.1 = "pub_" ++ x by rw [hq1, hx]⟩
    · rw [if_neg hqi] at hqp
      rw [← hqp] at ht ⊢
      exact hinv q hq ht
  · intro p hp ht
    rcases List.mem_append.mp hp with hh | hh
    · exact hinv p hh ht
    · rw [List.mem_singleton.mp hh] at ht ⊢
      have hdt : d.node_type = "publication" := by simpa [typeIs] using ht
      exact hd hdt

theorem prefOnly_add_edge (g : KG) (e : Edge) (hinv : PubPrefOnly g) :
    PubPrefOnly (g.add_edge e) := by
  intro p hp ht
  rcases add_edge_nodes_cases g e p hp with h | h
  · exact hinv p h ht
  · rw [h] at ht
    simp [typeIs] at ht

end NasaKG

namespace NasaKG

theorem processAuthor_pubs (pid : String) (L : List String) (st : BuildSt) (a : String)
    (h : PubSt L st) : PubSt L (processAuthor pid st a) := by
  obtain ⟨hinv, hids⟩ := h
  unfold processAuthor
  by_cases hb : isBlankName a
  · rw [if_pos hb]
    exact ⟨hinv, hids⟩
  · rw [if_neg hb]
    have hipref : ∀ x, authorIdOf a ≠ "pub_" ++ x := fun x h =>
      pub_ne_author x (normalize a) h.symm
    by_cases hs : authorIdOf a ∈ st.authors_seen
    · simp only [if_pos hs]
      exact ⟨prefOnly_add_edge _ _ hinv, by rw [pubIds_add_edge]; exact hids⟩
    · simp only [if_neg hs]
      refine ⟨prefOnly_add_edge _ _ (prefOnly_add_node _ _ _ hinv ?_), ?_⟩
      · intro hdt
        exact absurd hdt (by simp)
      · rw [pubIds_add_edge, pubIds_add_node_other _ _ _ hinv (by simp) hipref]
        exact hids

theorem processJournal_pubs (pid : String) (L : List String) (st : BuildSt)
    (j : Option String) (h : PubSt L st) : PubSt L (processJournal pid st j) := by
  obtain ⟨hinv, hids⟩ := h
  unfold processJournal
  by_cases ht : strTruthy j
  · rw [if_pos ht]
    have hipref : ∀ x, journalIdOf (j.getD "") ≠ "pub_" ++ x := fun x h =>
      pub_ne_journal x (normalize (j.getD "")) h.symm
    by_cases hs : journalIdOf (j.getD "") ∈ st.journals_seen
    · simp only [if_pos hs]
      exact ⟨prefOnly_add_edge _ _ hinv, by rw [pubIds_add_edge]; exact hids⟩
    · simp only [if_neg hs]
      refine ⟨prefOnly_add_edge _ _ (prefOnly_add_node _ _ _ hinv ?_), ?_⟩
      · intro hdt
        exact absurd hdt (by simp)
      · rw [pubIds_add_edge, pubIds_add_node_other _ _ _ hinv (by simp) hipref]
        exact hids
  · rw [if_neg ht]
    exact ⟨hinv, hids⟩

theorem processTheme_pubs (pid : String) (L : List String) (st : BuildSt)
    (t : Option String) (h : PubSt L st) : PubSt L (processTheme pid st t) := by
  obtain ⟨hinv, hids⟩ := h
  unfold processTheme
  by_cases ht : strTruthy t
  · rw [if_pos ht]
    have hipref : ∀ x, themeIdOf (t.getD "") ≠ "pub_" ++ x := fun x h =>
      pub_ne_theme x (normalize (t.getD "")) h.symm
    by_cases hs : themeIdOf (t.getD "") ∈ st.themes_seen
    · simp only [if_pos hs]
      exact ⟨prefOnly_add_edge _ _ hinv, by rw [pubIds_add_edge]; exact hids⟩
    · simp only [if_neg hs]
      refine ⟨prefOnly_add_edge _ _ (prefOnly_add_node _ _ _ hinv ?_), ?_⟩
      · intro hdt
        exact absurd hdt (by simp)
      · rw [pubIds_add_edge, pubIds_add_node_other _ _ _ hinv (by simp) hipref]
        exact hids
  · rw [if_neg ht]
    exact ⟨hinv, hids⟩

theorem processKeyword_pubs (pid : String) (L : List String) (st : BuildSt) (k : String)
    (h : PubSt L st) : PubSt L (processKeyword pid st k) := by
  obtain ⟨hinv, hids⟩ := h
  unfold processKeyword
  by_cases hb : isBlankName k
  · rw [if_pos hb]
    exact ⟨hinv, hids⟩
  · rw [if_neg hb]
    have hipref : ∀ x, keywordIdOf k ≠ "pub_" ++ x := fun x h =>
      pub_ne_keyword x (normalize k) h.symm
    by_cases hs : keywordIdOf k ∈ st.keywords_seen
    · simp only [if_pos hs]
      exact ⟨prefOnly_add_edge _ _ hinv, by rw [pubIds_add_edge]; exact hids⟩
    · simp only [if_neg hs]
      refine ⟨prefOnly_add_edge _ _ (prefOnly_add_node _ _ _ hinv ?_), ?_⟩
      · intro hdt
        exact absurd hdt (by simp)
      · rw [pubIds_add_edge, pubIds_add_node_other _ _ _ hinv (by simp) hipref]
        exact hids

theorem processRecord_pubs (L : List String) (st : BuildSt) (r : PubRecord)
    (h : PubSt L st) (hfresh : pubIdOf r.index ∉ st.g.nodeIds) :
    PubSt (L ++ [pubIdOf r.index]) (processRecord st r) := by
  obtain ⟨hinv, hids⟩ := h
  unfold processRecord
  have h1 : PubSt (L ++ [pubIdOf r.index])
      { st with g := (st.g.add_node (pubIdOf r.index)
          ⟨pubLabel r.title, "publication", pubProps r, 1⟩) } := by
    constructor
    · exact prefOnly_add_node _ _ _ hinv (fun _ => ⟨toString r.index, rfl⟩)
    · rw [pubIds_add_node_fresh _ _ _ hfresh, hids]
      simp
  have h2 := foldl_pres (PubSt (L ++ [pubIdOf r.index])) (processAuthor (pubIdOf r.index))
    (fun s a => processAuthor_pubs (pubIdOf r.index) _ s a) r.authors _ h1
  have h3 := processJournal_pubs (pubIdOf r.index) _ _ r.journal h2
  have h4 := processTheme_pubs (pubIdOf r.index) _ _ r.theme h3
  exact foldl_pres (PubSt (L ++ [pubIdOf r.index])) (processKeyword (pubIdOf r.index))
    (fun s k => processKeyword_pubs (pubIdOf r.index) _ s k) r.keywords _ h4

end NasaKG

namespace NasaKG

theorem processAuthor_ids (pid : String) (P : String → Prop) (hpid : P pid)
    (hnp : ∀ a, P (authorIdOf a)) (st : BuildSt) (a : String)
    (h : ∀ i ∈ st.g.nodeIds, P i) : ∀ i ∈ (processAuthor pid st a).g.nodeIds, P i := by
  unfold processAuthor
  by_cases hb : isBlankName a
  · rw [if_pos hb]
    exact h
  · rw [if_neg hb]
    by_cases hs : authorIdOf a ∈ st.authors_seen
    · simp only [if_pos hs]
      intro i hi
      rcases add_edge_nodeIds_sub _ _ i hi with hh | hh | hh
      · exact h i hh
      · rw [hh]
        exact hpid
      · rw [hh]
        exact hnp a
    · simp only [if_neg hs]
      intro i hi
      rcases add_edge_nodeIds_sub _ _ i hi with hh | hh | hh
      · rcases add_node_nodeIds_sub _ _ _ i hh with h2 | h2
        · exact h i h2
        · rw [h2]
          exact hnp a
      · rw [hh]
        exact hpid
      · rw [hh]
        exact hnp a

theorem processJournal_ids (pid : String) (P : String → Prop) (hpid : P pid)
    (hnp : ∀ j, P (journalIdOf j)) (st : BuildSt) (j : Option String)
    (h : ∀ i ∈ st.g.nodeIds, P i) : ∀ i ∈ (processJournal pid st j).g.nodeIds, P i := by
  unfold processJournal
  by_cases ht : strTruthy j
  · rw [if_pos ht]
    by_cases hs : journalIdOf (j.getD "") ∈ st.journals_seen
    · simp only [if_pos hs]
      intro i hi
      rcases add_edge_nodeIds_sub _ _ i hi with hh | hh | hh
      · exact h i hh
      · rw [hh]
        exact hpid
      · rw [hh]
        exact hnp _
    · simp only [if_neg hs]
      intro i hi
      rcases add_edge_nodeIds_sub _ _ i hi with hh | hh | hh
      · rcases add_node_nodeIds_sub _ _ _ i hh with h2 | h2
        · exact h i h2
        · rw [h2]
          exact hnp _
      · rw [hh]
        exact hpid
      · rw [hh]
        exact hnp _
  · rw [if_neg ht]
    exact h

theorem processTheme_ids (pid : String) (P : String → Prop) (hpid : P pid)
    (hnp : ∀ t, P (themeIdOf t)) (st : BuildSt) (t : Option String)
    (h : ∀ i ∈ st.g.nodeIds, P i) : ∀ i ∈ (processTheme pid st t).g.nodeIds, P i := by
  unfold processTheme
  by_cases ht : strTruthy t
  · rw [if_pos ht]
    by_cases hs : themeIdOf (t.getD "") ∈ st.themes_seen
    · simp only [if_pos hs]
      intro i hi
      rcases add_edge_nodeIds_sub _ _ i hi with hh | hh | hh
      · exact h i hh
      · rw [hh]
        exact hpid
      · rw [hh]
        exact hnp _
    · simp only [if_neg hs]
      intro i hi
      rcases add_edge_nodeIds_sub _ _ i hi with hh | hh | hh
      · rcases add_node_nodeIds_sub _ _ _ i hh with h2 | h2
        · exact h i h2
        · rw [h2]
          exact hnp _
      · rw [hh]
        exact hpid
      · rw [hh]
        exact hnp _
  · rw [if_neg ht]
    exact h

theorem processKeyword_ids (pid : String) (P : String → Prop) (hpid : P pid)
    (hnp : ∀ k, P (keywordIdOf k)) (st : BuildSt) (k : String)
    (h : ∀ i ∈ st.g.nodeIds, P i) : ∀ i ∈ (processKeyword pid st k).g.nodeIds, P i := by
  unfold processKeyword
  by_cases hb : isBlankName k
  · rw [if_pos hb]
    exact h
  · rw [if_neg hb]
    by_cases hs : keywordIdOf k ∈ st.keywords_seen
    · simp only [if_pos hs]
      intro i hi
      rcases add_edge_nodeIds_sub _ _ i hi with hh | hh | hh
      · exact h i hh
      · rw [hh]
        exact hpid
      · rw [hh]
        exact hnp k
    · simp only [if_neg hs]
      intro i hi
      rcases add_edge_nodeIds_sub _ _ i hi with hh | hh | hh
      · rcases add_node_nodeIds_sub _ _ _ i hh with h2 | h2
        · exact h i h2
        · rw [h2]
          exact hnp k
      · rw [hh]
        exact hpid
      · rw [hh]
        exact hnp k

theorem processRecord_ids (st : BuildSt) (r : PubRecord) :
    ∀ i ∈ (processRecord st r).g.nodeIds,
      i ∈ st.g.nodeIds ∨ i = pubIdOf r.index ∨ (∀ x, i ≠ "pub_" ++ x) := by
  set P : String → Prop :=
    fun i => i ∈ st.g.nodeIds ∨ i = pubIdOf r.index ∨ (∀ x, i ≠ "pub_" ++ x) with hP
  show ∀ i ∈ (processRecord st r).g.nodeIds, P i
  unfold processRecord
  have hpid : P (pubIdOf r.index) := Or.inr (Or.inl rfl)
  have h1 : ∀ i ∈ ({ st with g := (st.g.add_node (pubIdOf r.index)
      ⟨pubLabel r.title, "publication", pubProps r, 1⟩) } : BuildSt).g.nodeIds, P i := by
    intro i hi
    rcases add_node_nodeIds_sub _ _ _ i hi with hh | hh
    · exact Or.inl hh
    · rw [hh]
      exact hpid
  have h2 := foldl_pres
    (fun s : BuildSt => ∀ i ∈ s.g.nodeIds, P i) (processAuthor (pubIdOf r.index))
    (fun s a hs => processAuthor_ids (pubIdOf r.index) P hpid
      (fun a2 => Or.inr (Or.inr (fun x h => pub_ne_author x (normalize a2) h.symm))) s a hs)
    r.authors _ h1
  have h3 := processJournal_ids (pubIdOf r.index) P hpid
    (fun j => Or.inr (Or.inr (fun x h => pub_ne_journal x (normalize j) h.symm))) _ r.journal h2
  have h4 := processTheme_ids (pubIdOf r.index) P hpid
    (fun t => Or.inr (Or.inr (fun x h => pub_ne_theme x (normalize t) h.symm))) _ r.theme h3
  exact foldl_pres
    (fun s : BuildSt => ∀ i ∈ s.g.nodeIds, P i) (processKeyword (pubIdOf r.index))
    (fun s k hs => processKeyword_ids (pubIdOf r.index) P hpid
      (fun k2 => Or.inr (Or.inr (fun x h => pub_ne_keyword x (normalize k2) h.symm))) s k hs)
    r.keywords _ h4

theorem foldl_pubs :
    ∀ (recs : List PubRecord) (st : BuildSt) (L : List String), PubSt L st →
      (∀ r ∈ recs, pubIdOf r.index ∉ st.g.nodeIds) →
      (recs.map (fun r => pubIdOf r.index)).Nodup →
      PubSt (L ++ recs.map (fun r => pubIdOf r.index)) (recs.foldl processRecord st) := by
  intro recs
  induction recs with
  | nil =>
    intro st L h _ _
    simpa using h
  | cons r rest ih =>
    intro st L h hfresh hnd
    rw [List.map_cons] at hnd
    obtain ⟨hhd, htl⟩ := List.nodup_cons.mp hnd
    have h1 := processRecord_pubs L st r h (hfresh r (List.mem_cons_self r rest))
    have hfresh2 : ∀ r2 ∈ rest, pubIdOf r2.index ∉ (processRecord st r).g.nodeIds := by
      intro r2 hr2 hmem
      rcases processRecord_ids st r _ hmem with hh | hh | hh
      · exact hfresh r2 (List.mem_cons_of_mem r hr2) hh
      · have hmm : pubIdOf r2.index ∈ rest.map (fun q => pubIdOf q.index) :=
          List.mem_map_of_mem (fun q => pubIdOf q.index) hr2
        rw [hh] at hmm
        exact hhd hmm
      · exact hh (toString r2.index) rfl
    have h2 := ih (processRecord st r) (L ++ [pubIdOf r.index]) h1 hfresh2 htl
    rw [List.foldl_cons, List.map_cons]
    rw [List.append_assoc] at h2
    simpa using h2

theorem phase1_pubIds (recs : List PubRecord)
    (hnd : (recs.map (fun r => pubIdOf r.index)).Nodup) :
    pubIds (phase1 recs) = recs.map (fun r => pubIdOf r.index) := by
  have h0 : PubSt [] (⟨KG.empty, [], [], [], []⟩ : BuildSt) := by
    constructor
    · intro p hp
      exact absurd hp (List.not_mem_nil p)
    · rfl
  have h := foldl_pubs recs ⟨KG.empty, [], [], [], []⟩ [] h0
    (fun r _ hmem => absurd hmem (List.not_mem_nil _)) hnd
  have := h.2
  rw [List.nil_append] at this
  exact this

end NasaKG

namespace NasaKG

theorem recEdges_filter_source_self (r : PubRecord) :
    (recEdges r).filter (fun e => e.source == pubIdOf r.index) = recEdges r := by
  rw [List.filter_eq_self]
  intro e he
  have := (recEdges_shape r e he).1
  simp [this]

theorem recEdges_filter_source_ne (r r2 : PubRecord)
    (h : pubIdOf r2.index ≠ pubIdOf r.index) :
    (recEdges r2).filter (fun e => e.source == pubIdOf r.index) = [] := by
  rw [List.filter_eq_nil_iff]
  intro e he
  have := (recEdges_shape r2 e he).1
  simp [this, h]

theorem phase1_outEdges :
    ∀ (recs : List PubRecord) (r : PubRecord), r ∈ recs →
      (recs.map (fun q => pubIdOf q.index)).Nodup →
      (phase1 recs).outEdges (pubIdOf r.index) = recEdges r := by
  have main : ∀ (recs : List PubRecord) (r : PubRecord), r ∈ recs →
      (recs.map (fun q => pubIdOf q.index)).Nodup →
      (recs.flatMap recEdges).filter (fun e => e.source == pubIdOf r.index) = recEdges r := by
    intro recs
    induction recs with
    | nil =>
      intro r hr
      exact absurd hr (List.not_mem_nil r)
    | cons r0 rest ih =>
      intro r hr hnd
      rw [List.map_cons] at hnd
      obtain ⟨hhd, htl⟩ := List.nodup_cons.mp hnd
      rw [List.flatMap_cons, List.filter_append]
      rcases List.mem_cons.mp hr with hcase | hcase
      · subst hcase
        rw [recEdges_filter_source_self r]
        have hrest : (rest.flatMap recEdges).filter
            (fun e => e.source == pubIdOf r.index) = [] := by
          rw [List.filter_eq_nil_iff]
          intro e he
          obtain ⟨r2, hr2, he2⟩ := List.mem_flatMap.mp he
          have hsrc := (recEdges_shape r2 e he2).1
          have hne : pubIdOf r2.index ≠ pubIdOf r.index := by
            intro heq
            have hmm : pubIdOf r2.index ∈ rest.map (fun q => pubIdOf q.index) :=
              List.mem_map_of_mem (fun q => pubIdOf q.index) hr2
            rw [heq] at hmm
            exact hhd hmm
          simp [hsrc, hne]
        rw [hrest, List.append_nil]
      · have hne : pubIdOf r0.index ≠ pubIdOf r.index := by
          intro heq
          have hmm : pubIdOf r.index ∈ rest.map (fun q => pubIdOf q.index) :=
            List.mem_map_of_mem (fun q => pubIdOf q.index) hcase
          rw [← heq] at hmm
          exact hhd hmm
        rw [recEdges_filter_source_ne r r0 hne, List.nil_append]
        exact ih r hcase htl
  intro recs r hr hnd
  unfold KG.outEdges
  rw [phase1_edges]
  exact main recs r hr hnd

theorem recEdges_shape2 (r : PubRecord) (e : Edge) (he : e ∈ recEdges r) :
    (e.relationship_type = "authored_by" ∧ ∃ x, e.target = "author_" ++ x) ∨
      (e.relationship_type ≠ "authored_by" ∧ ∀ x, e.target ≠ "author_" ++ x) := by
  unfold recEdges at he
  rcases List.mem_append.mp he with h | h
  · obtain ⟨aid, haid, rfl⟩ := List.mem_map.mp h
    obtain ⟨a, _, rfl⟩ := List.mem_map.mp haid
    exact Or.inl ⟨rfl, normalize a, rfl⟩
  rcases List.mem_append.mp h with h | h
  · by_cases hj : strTruthy r.journal
    · rw [if_pos hj] at h
      rw [List.mem_singleton.mp h]
      exact Or.inr ⟨by simp, fun x hx =>
        author_ne_journal x (normalize (r.journal.getD "")) hx.symm⟩
    · rw [if_neg hj] at h
      exact absurd h (List.not_mem_nil e)
  rcases List.mem_append.mp h with h | h
  · by_cases ht : strTruthy r.theme
    · rw [if_pos ht] at h
      rw [List.mem_singleton.mp h]
      exact Or.inr ⟨by simp, fun x hx =>
        author_ne_theme x (normalize (r.theme.getD "")) hx.symm⟩
    · rw [if_neg ht] at h
      exact absurd h (List.not_mem_nil e)
  · obtain ⟨kid, hkid, rfl⟩ := List.mem_map.mp h
    obtain ⟨k, _, rfl⟩ := List.mem_map.mp hkid
    exact Or.inr ⟨by simp, fun x hx =>
      author_ne_keyword x (normalize k) hx.symm⟩

theorem recEdges_rel_target (r : PubRecord) :
    ∀ e1 ∈ recEdges r, ∀ e2 ∈ recEdges r, e1.target = e2.target →
      (e1.relationship_type == "authored_by") = (e2.relationship_type == "authored_by") := by
  intro e1 h1 e2 h2 htg
  rcases recEdges_shape2 r e1 h1 with ⟨ha1, x1, ht1⟩ | ⟨ha1, ht1⟩ <;>
    rcases recEdges_shape2 r e2 h2 with ⟨ha2, x2, ht2⟩ | ⟨ha2, ht2⟩
  · rw [ha1, ha2]
  · exact absurd (htg ▸ ht1) (ht2 x1)
  · exact absurd (htg.symm ▸ ht2) (ht1 x2)
  · simp [ha1, ha2]

theorem recEdges_filter_authored (r : PubRecord) :
    (recEdges r).filter (fun e => e.relationship_type == "authored_by") =
      (recAuthorIds r).map (fun aid => ⟨pubIdOf r.index, aid, "authored_by", 1, []⟩) := by
  unfold recEdges
  rw [List.filter_append, List.filter_append, List.filter_append]
  have h1 : ((recAuthorIds r).map
      (fun aid => (⟨pubIdOf r.index, aid, "authored_by", 1, []⟩ : Edge))).filter
      (fun e => e.relationship_type == "authored_by") =
      (recAuthorIds r).map (fun aid => ⟨pubIdOf r.index, aid, "authored_by", 1, []⟩) := by
    rw [List.filter_eq_self]
    intro e he
    obtain ⟨aid, _, rfl⟩ := List.mem_map.mp he
    simp
  have h2 : (if strTruthy r.journal then
      [(⟨pubIdOf r.index, journalIdOf (r.journal.getD ""), "published_in", 1, []⟩ : Edge)]
    else []).filter (fun e => e.relationship_type == "authored_by") = [] := by
    by_cases hj : strTruthy r.journal <;> simp [hj]
  have h3 : (if strTruthy r.theme then
      [(⟨pubIdOf r.index, themeIdOf (r.theme.getD ""), "has_theme", 1, []⟩ : Edge)]
    else []).filter (fun e => e.relationship_type == "authored_by") = [] := by
    by_cases ht : strTruthy r.theme <;> simp [ht]
  have h4 : ((recKeywordIds r).map
      (fun kid => (⟨pubIdOf r.index, kid, "has_keyword", 1, []⟩ : Edge))).filter
      (fun e => e.relationship_type == "authored_by") = [] := by
    rw [List.filter_eq_nil_iff]
    intro e he
    obtain ⟨kid, _, rfl⟩ := List.mem_map.mp he
    simp
  rw [h1, h2, h3, h4]
  simp

theorem phase1_authorsOfPub (recs : List PubRecord) (r : PubRecord) (hr : r ∈ recs)
    (hnd : (recs.map (fun q => pubIdOf q.index)).Nodup)
    (hnda : (recAuthorIds r).Nodup) :
    authorsOfPub (phase1 recs) (pubIdOf r.index) = recAuthorIds r := by
  unfold authorsOfPub KG.edgesFrom
  rw [phase1_outEdges recs r hr hnd]
  have hfil : ((recEdges r).filter
      (fun e => e.relationship_type == "authored_by")).map Edge.target =
      recAuthorIds r := by
    rw [recEdges_filter_authored, List.map_map]
    simp [Function.comp_def]
  rw [adjOrder_filter_eq (fun e => e.relationship_type == "authored_by")
    (recEdges r).length (recEdges r) le_rfl (recEdges_rel_target r)
    (by rw [hfil]; exact hnda)]
  have : ((recEdges r).filter (fun e => e.relationship_type == "authored_by")).map
      (fun e => e.target) = ((recEdges r).filter
      (fun e => e.relationship_type == "authored_by")).map Edge.target := rfl
  rw [this, hfil]

end NasaKG

namespace NasaKG

theorem recAuthorIds_pref (r : PubRecord) :
    ∀ aid ∈ recAuthorIds r, ∃ x, aid = "author_" ++ x := by
  intro aid haid
  obtain ⟨a, _, rfl⟩ := List.mem_map.mp haid
  exact ⟨normalize a, rfl⟩

theorem foldl_addEdge_edges :
    ∀ (l : List (String × String)) (acc : KG),
      (l.foldl (fun h pr => h.add_edge (mkCoEdge pr)) acc).edges =
        acc.edges ++ l.map mkCoEdge := by
  intro l
  induction l with
  | nil =>
    intro acc
    simp
  | cons p t ih =>
    intro acc
    rw [List.foldl_cons, ih, add_edge_edges, List.map_cons, List.append_assoc]
    simp

theorem coFold_edges :
    ∀ (rs : List PubRecord) (acc : KG),
      (∀ r ∈ rs, authorsOfPub acc (pubIdOf r.index) = recAuthorIds r) →
      ((rs.map (fun r => pubIdOf r.index)).foldl
          (fun a pid => (pairsOf (authorsOfPub a pid)).foldl
            (fun h pr => h.add_edge (mkCoEdge pr)) a) acc).edges =
        acc.edges ++ rs.flatMap (fun r => (pairsOf (recAuthorIds r)).map mkCoEdge) := by
  intro rs
  induction rs with
  | nil =>
    intro acc _
    simp
  | cons r rest ih =>
    intro acc hap
    rw [List.map_cons, List.foldl_cons]
    have hedges : ((pairsOf (authorsOfPub acc (pubIdOf r.index))).foldl
        (fun h pr => h.add_edge (mkCoEdge pr)) acc).edges =
        acc.edges ++ (pairsOf (recAuthorIds r)).map mkCoEdge := by
      rw [foldl_addEdge_edges, hap r (List.mem_cons_self r rest)]
    have hout : ∀ r2 ∈ rest,
        ((pairsOf (authorsOfPub acc (pubIdOf r.index))).foldl
          (fun h pr => h.add_edge (mkCoEdge pr)) acc).outEdges (pubIdOf r2.index) =
        acc.outEdges (pubIdOf r2.index) := by
      intro r2 hr2
      unfold KG.outEdges
      rw [hedges, List.filter_append]
      have hzero : ((pairsOf (recAuthorIds r)).map mkCoEdge).filter
          (fun e => e.source == pubIdOf r2.index) = [] := by
        rw [List.filter_eq_nil_iff]
        intro e he hbeq
        obtain ⟨pr, hpr, rfl⟩ := List.mem_map.mp he
        obtain ⟨x, hx⟩ := recAuthorIds_pref r pr.1
          (pairsOf_mem (recAuthorIds r) pr.1 pr.2 (by rw [Prod.mk.eta]; exact hpr)).1
        have hsrc : (mkCoEdge pr).source = pubIdOf r2.index := by simpa using hbeq
        rw [show (mkCoEdge pr).source = pr.1 from rfl, hx] at hsrc
        exact pub_ne_author (toString r2.index) x hsrc.symm
      rw [hzero, List.append_nil]
    have hap2 : ∀ r2 ∈ rest,
        authorsOfPub ((pairsOf (authorsOfPub acc (pubIdOf r.index))).foldl
          (fun h pr => h.add_edge (mkCoEdge pr)) acc) (pubIdOf r2.index) =
        recAuthorIds r2 := by
      intro r2 hr2
      set acc2 := (pairsOf (authorsOfPub acc (pubIdOf r.index))).foldl
        (fun h pr => h.add_edge (mkCoEdge pr)) acc with hacc2
      have hcongr : authorsOfPub acc2 (pubIdOf r2.index) =
          authorsOfPub acc (pubIdOf r2.index) := by
        unfold authorsOfPub KG.edgesFrom
        rw [hout r2 hr2]
      exact hcongr.trans (hap r2 (List.mem_cons_of_mem r hr2))
    rw [ih _ hap2, hedges, List.flatMap_cons, List.append_assoc]

theorem build_edges (recs : List PubRecord)
    (hnd : (recs.map (fun r => pubIdOf r.index)).Nodup)
    (hauth : ∀ r ∈ recs, (recAuthorIds r).Nodup) :
    (build_from_publications recs).edges =
      recs.flatMap recEdges ++
        recs.flatMap (fun r => (pairsOf (recAuthorIds r)).map mkCoEdge) := by
  unfold build_from_publications
  have hpubs : addCoAuthorship (phase1 recs) = ((pubIds (phase1 recs)).foldl
      (fun a pid => (pairsOf (authorsOfPub a pid)).foldl
        (fun h pr => h.add_edge (mkCoEdge pr)) a) (phase1 recs)) := rfl
  rw [hpubs, phase1_pubIds recs hnd,
    coFold_edges recs (phase1 recs)
      (fun r hr => phase1_authorsOfPub recs r hr hnd (hauth r hr)),
    phase1_edges]

end NasaKG

namespace NasaKG

theorem countP_flatMap {α β : Type} (l : List α) (f : α → List β) (p : β → Bool) :
    (l.flatMap f).countP p = (l.map (fun a => (f a).countP p)).sum := by
  induction l with
  | nil => rfl
  | cons a t ih =>
    rw [List.flatMap_cons, List.countP_append, List.map_cons, List.sum_cons, ih]

theorem co_block_countP (l : List String) (aid bid : String) :
    ((pairsOf l).map mkCoEdge).countP
        (fun e => e.source == aid && e.target == bid &&
          e.relationship_type == "co_authors") =
      (pairsOf l).count (aid, bid) := by
  rw [List.countP_map, List.count_eq_countP]
  apply countP_pointwise
  intro p _
  cases p with
  | mk x y =>
    show (x == aid && y == bid && ("co_authors" == "co_authors")) = ((x, y) == (aid, bid))
    rw [show ((x, y) == (aid, bid)) = (x == aid && y == bid) from rfl]
    simp

theorem sum_if_eq_countP {α : Type} (l : List α) (C : α → Prop) [DecidablePred C] :
    (l.map (fun a => if C a then 1 else 0)).sum = l.countP (fun a => decide (C a)) := by
  induction l with
  | nil => rfl
  | cons a t ih =>
    rw [List.map_cons, List.sum_cons, List.countP_cons, ih]
    by_cases h : C a
    · simp [h, Nat.add_comm]
    · simp [h]

theorem dir_if_sum (l : List String) (a b : String) (hab : a ≠ b) :
    ((if a ∈ l ∧ b ∈ l ∧ l.indexOf a < l.indexOf b then 1 else 0) : Nat) +
      (if b ∈ l ∧ a ∈ l ∧ l.indexOf b < l.indexOf a then 1 else 0) =
      if a ∈ l ∧ b ∈ l then 1 else 0 := by
  by_cases ha : a ∈ l
  · by_cases hb : b ∈ l
    · have hne : l.indexOf a ≠ l.indexOf b := by
        intro h
        have h1 : l.indexOf a < l.length := List.indexOf_lt_length.mpr ha
        have h2 : l.indexOf b < l.length := List.indexOf_lt_length.mpr hb
        have hg1 := List.getElem_indexOf h1
        have hg2 := List.getElem_indexOf h2
        apply hab
        rw [← hg1, ← hg2]
        congr 1
      rcases Nat.lt_or_ge (l.indexOf a) (l.indexOf b) with hlt | hge
      · rw [if_pos ⟨ha, hb, hlt⟩, if_neg (fun hc => Nat.lt_asymm hlt hc.2.2),
          if_pos ⟨ha, hb⟩]
      · have hlt2 : l.indexOf b < l.indexOf a :=
          Nat.lt_of_le_of_ne hge (fun h => hne h.symm)
        rw [if_neg (fun hc => Nat.lt_asymm hlt2 hc.2.2), if_pos ⟨hb, ha, hlt2⟩,
          if_pos ⟨ha, hb⟩]
    · rw [if_neg (fun hc => hb hc.2.1), if_neg (fun hc => hb hc.1),
        if_neg (fun hc => hb hc.2)]
  · rw [if_neg (fun hc => ha hc.1), if_neg (fun hc => ha hc.2.1),
      if_neg (fun hc => ha hc.1)]

theorem build_co_countP (recs : List PubRecord)
    (hnd : (recs.map (fun r => pubIdOf r.index)).Nodup)
    (hauth : ∀ r ∈ recs, (recAuthorIds r).Nodup)
    (aid bid : String) (hab : aid ≠ bid) :
    (build_from_publications recs).edges.countP
        (fun e => e.source == aid && e.target == bid &&
          e.relationship_type == "co_authors") =
      recs.countP (fun r => decide (aid ∈ recAuthorIds r ∧ bid ∈ recAuthorIds r ∧
        (recAuthorIds r).indexOf aid < (recAuthorIds r).indexOf bid)) := by
  rw [build_edges recs hnd hauth, List.countP_append]
  have h0 : (recs.flatMap recEdges).countP
      (fun e => e.source == aid && e.target == bid &&
        e.relationship_type == "co_authors") = 0 := by
    rw [List.countP_eq_zero]
    intro e he
    obtain ⟨r, _, her⟩ := List.mem_flatMap.mp he
    have hrel := (recEdges_shape r e her).2.1
    simp [hrel]
  rw [h0, Nat.zero_add, countP_flatMap]
  have hcong : recs.map (fun r => ((pairsOf (recAuthorIds r)).map mkCoEdge).countP
      (fun e => e.source == aid && e.target == bid &&
        e.relationship_type == "co_authors")) =
      recs.map (fun r => if aid ∈ recAuthorIds r ∧ bid ∈ recAuthorIds r ∧
        (recAuthorIds r).indexOf aid < (recAuthorIds r).indexOf bid then 1 else 0) := by
    apply List.map_congr_left
    intro r hr
    rw [co_block_countP, pairsOf_count (recAuthorIds r) (hauth r hr) aid bid hab]
  rw [hcong, sum_if_eq_countP]

theorem countP_dir_sum (aid bid : String) (hab : aid ≠ bid) :
    ∀ (recs : List PubRecord),
      recs.countP (fun r => decide (aid ∈ recAuthorIds r ∧ bid ∈ recAuthorIds r ∧
          (recAuthorIds r).indexOf aid < (recAuthorIds r).indexOf bid)) +
        recs.countP (fun r => decide (bid ∈ recAuthorIds r ∧ aid ∈ recAuthorIds r ∧
          (recAuthorIds r).indexOf bid < (recAuthorIds r).indexOf aid)) =
      recs.countP (fun r => decide (aid ∈ recAuthorIds r ∧ bid ∈ recAuthorIds r)) := by
  intro recs
  induction recs with
  | nil => rfl
  | cons r t ih =>
    rw [List.countP_cons, List.countP_cons, List.countP_cons]
    simp only [decide_eq_true_eq]
    have hd := dir_if_sum (recAuthorIds r) aid bid hab
    by_cases h1 : aid ∈ recAuthorIds r ∧ bid ∈ recAuthorIds r ∧
        (recAuthorIds r).indexOf aid < (recAuthorIds r).indexOf bid <;>
      by_cases h2 : bid ∈ recAuthorIds r ∧ aid ∈ recAuthorIds r ∧
          (recAuthorIds r).indexOf bid < (recAuthorIds r).indexOf aid <;>
        by_cases h3 : aid ∈ recAuthorIds r ∧ bid ∈ recAuthorIds r <;>
          simp only [h1, h2, h3, if_true, if_false] at hd ⊢ <;> omega

end NasaKG

namespace NasaKG

/-- C4: the original claim fails on a record that lists the same author
twice: in build_from_publications([{index: 0, title: 'T', authors: ['A',
'A', 'B']}]) the authors A and B co-occur on exactly one publication, yet
the build creates two co_authors edges from author_a to author_b (the
duplicated listing makes the ordered-pair loop emit the pair twice). -/
theorem C4_counterexample :
    ((build_from_publications
        [{ index := 0, title := "T", authors := ["A", "A", "B"] }]).edges.countP
      (fun e => e.source == authorIdOf "A" && e.target == authorIdOf "B" &&
        e.relationship_type == "co_authors") = 2) ∧
    (([{ index := 0, title := "T", authors := ["A", "A", "B"] }] :
        List PubRecord).countP
      (fun r => decide (authorIdOf "A" ∈ recAuthorIds r ∧
        authorIdOf "B" ∈ recAuthorIds r)) = 1) := by
  decide

/-- C4 (amended): when the records carry pairwise distinct indices and
each record's author list is duplicate-free after normalization, then for
any two distinct author ids the number of co_authors edges in each
direction equals the number of records in which both occur with the
source listed strictly earlier than the target; in particular the two
directions together contribute exactly one edge per shared publication
(one per co-occurrence, never deduplicated, never a symmetric pair). -/
theorem C4_co_author_edges_directional (recs : List PubRecord) (A B : String)
    (hnd : (recs.map (fun r => pubIdOf r.index)).Nodup)
    (hauth : ∀ r ∈ recs, (recAuthorIds r).Nodup)
    (hab : authorIdOf A ≠ authorIdOf B) :
    ((build_from_publications recs).edges.countP
        (fun e => e.source == authorIdOf A && e.target == authorIdOf B &&
          e.relationship_type == "co_authors") =
      recs.countP (fun r => decide (authorIdOf A ∈ recAuthorIds r ∧
        authorIdOf B ∈ recAuthorIds r ∧
        (recAuthorIds r).indexOf (authorIdOf A) <
          (recAuthorIds r).indexOf (authorIdOf B)))) ∧
    ((build_from_publications recs).edges.countP
        (fun e => e.source == authorIdOf B && e.target == authorIdOf A &&
          e.relationship_type == "co_authors") =
      recs.countP (fun r => decide (authorIdOf B ∈ recAuthorIds r ∧
        authorIdOf A ∈ recAuthorIds r ∧
        (recAuthorIds r).indexOf (authorIdOf B) <
          (recAuthorIds r).indexOf (authorIdOf A)))) ∧
    ((build_from_publications recs).edges.countP
        (fun e => e.source == authorIdOf A && e.target == authorIdOf B &&
          e.relationship_type == "co_authors") +
      (build_from_publications recs).edges.countP
        (fun e => e.source == authorIdOf B && e.target == authorIdOf A &&
          e.relationship_type == "co_authors") =
      recs.countP (fun r => decide (authorIdOf A ∈ recAuthorIds r ∧
        authorIdOf B ∈ recAuthorIds r))) := by
  refine ⟨build_co_countP recs hnd hauth (authorIdOf A) (authorIdOf B) hab,
    build_co_countP recs hnd hauth (authorIdOf B) (authorIdOf A)
      (fun h => hab h.symm), ?_⟩
  rw [build_co_countP recs hnd hauth (authorIdOf A) (authorIdOf B) hab,
    build_co_countP recs hnd hauth (authorIdOf B) (authorIdOf A)
      (fun h => hab h.symm)]
  exact countP_dir_sum (authorIdOf A) (authorIdOf B) hab recs

/-- Witness for C4 on two publications that list Ann and Bob in opposite
orders: one co_authors edge per direction, two in total. -/
theorem C4_witness :
    (([{ index := 0, title := "T1", authors := ["Ann", "Bob"] },
        { index := 1, title := "T2", authors := ["Bob", "Ann"] }] :
          List PubRecord).map (fun r => pubIdOf r.index)).Nodup ∧
    (∀ r ∈ ([{ index := 0, title := "T1", authors := ["Ann", "Bob"] },
        { index := 1, title := "T2", authors := ["Bob", "Ann"] }] :
          List PubRecord), (recAuthorIds r).Nodup) ∧
    authorIdOf "Ann" ≠ authorIdOf "Bob" ∧
    (((build_from_publications
          [{ index := 0, title := "T1", authors := ["Ann", "Bob"] },
           { index := 1, title := "T2", authors := ["Bob", "Ann"] }]).edges.countP
        (fun e => e.source == authorIdOf "Ann" && e.target == authorIdOf "Bob" &&
          e.relationship_type == "co_authors") =
      ([{ index := 0, title := "T1", authors := ["Ann", "Bob"] },
        { index := 1, title := "T2", authors := ["Bob", "Ann"] }] :
          List PubRecord).countP
        (fun r => decide (authorIdOf "Ann" ∈ recAuthorIds r ∧
          authorIdOf "Bob" ∈ recAuthorIds r ∧
          (recAuthorIds r).indexOf (authorIdOf "Ann") <
            (recAuthorIds r).indexOf (authorIdOf "Bob")))) ∧
    ((build_from_publications
          [{ index := 0, title := "T1", authors := ["Ann", "Bob"] },
           { index := 1, title := "T2", authors := ["Bob", "Ann"] }]).edges.countP
        (fun e => e.source == authorIdOf "Bob" && e.target == authorIdOf "Ann" &&
          e.relationship_type == "co_authors") =
      ([{ index := 0, title := "T1", authors := ["Ann", "Bob"] },
        { index := 1, title := "T2", authors := ["Bob", "Ann"] }] :
          List PubRecord).countP
        (fun r => decide (authorIdOf "Bob" ∈ recAuthorIds r ∧
          authorIdOf "Ann" ∈ recAuthorIds r ∧
          (recAuthorIds r).indexOf (authorIdOf "Bob") <
            (recAuthorIds r).indexOf (authorIdOf "Ann")))) ∧
    ((build_from_publications
          [{ index := 0, title := "T1", authors := ["Ann", "Bob"] },
           { index := 1, title := "T2", authors := ["Bob", "Ann"] }]).edges.countP
        (fun e => e.source == authorIdOf "Ann" && e.target == authorIdOf "Bob" &&
          e.relationship_type == "co_authors") +
      (build_from_publications
          [{ index := 0, title := "T1", authors := ["Ann", "Bob"] },
           { index := 1, title := "T2", authors := ["Bob", "Ann"] }]).edges.countP
        (fun e => e.source == authorIdOf "Bob" && e.target == authorIdOf "Ann" &&
          e.relationship_type == "co_authors") =
      ([{ index := 0, title := "T1", authors := ["Ann", "Bob"] },
        { index := 1, title := "T2", authors := ["Bob", "Ann"] }] :
          List PubRecord).countP
        (fun r => decide (authorIdOf "Ann" ∈ recAuthorIds r ∧
          authorIdOf "Bob" ∈ recAuthorIds r)))) :=
  ⟨by decide, by decide, by decide,
    C4_co_author_edges_directional
      [{ index := 0, title := "T1", authors := ["Ann", "Bob"] },
       { index := 1, title := "T2", authors := ["Bob", "Ann"] }]
      "Ann" "Bob" (by decide) (by decide) (by decide)⟩

end NasaKG

namespace NasaKG

theorem eraseDups_loop_mem {α : Type} [BEq α] [LawfulBEq α] (x : α) :
    ∀ (as bs : List α), x ∈ List.eraseDups.loop as bs ↔ x ∈ bs ∨ x ∈ as := by
  intro as
  induction as with
  | nil =>
    intro bs
    simp [List.eraseDups.loop]
  | cons a as ih =>
    intro bs
    cases h : bs.elem a with
    | true =>
      have hmem : a ∈ bs := List.mem_of_elem_eq_true h
      rw [show List.eraseDups.loop (a :: as) bs = List.eraseDups.loop as bs by
        simp only [List.eraseDups.loop]
        rw [h]]
      rw [ih bs]
      constructor
      · rintro (hb | ha)
        · exact Or.inl hb
        · exact Or.inr (List.mem_cons_of_mem a ha)
      · rintro (hb | ha)
        · exact Or.inl hb
        · rcases List.mem_cons.mp ha with hx | hx
          · exact Or.inl (hx ▸ hmem)
          · exact Or.inr hx
    | false =>
      rw [show List.eraseDups.loop (a :: as) bs = List.eraseDups.loop as (a :: bs) by
        simp only [List.eraseDups.loop]
        rw [h]]
      rw [ih (a :: bs)]
      constructor
      · rintro (hb | ha)
        · rcases List.mem_cons.mp hb with hx | hx
          · exact Or.inr (hx ▸ List.mem_cons_self a as)
          · exact Or.inl hx
        · exact Or.inr (List.mem_cons_of_mem a ha)
      · rintro (hb | ha)
        · exact Or.inl (List.mem_cons_of_mem a hb)
        · rcases List.mem_cons.mp ha with hx | hx
          · exact Or.inl (hx ▸ List.mem_cons_self a bs)
          · exact Or.inr hx

theorem mem_eraseDups {α : Type} [BEq α] [LawfulBEq α] (x : α) (l : List α) :
    x ∈ l.eraseDups ↔ x ∈ l := by
  unfold List.eraseDups
  rw [eraseDups_loop_mem x l []]
  simp

theorem eraseDups_loop_nodup {α : Type} [BEq α] [LawfulBEq α] :
    ∀ (as bs : List α), bs.Nodup → (List.eraseDups.loop as bs).Nodup := by
  intro as
  induction as with
  | nil =>
    intro bs hbs
    rw [show List.eraseDups.loop ([] : List α) bs = bs.reverse by
      simp [List.eraseDups.loop]]
    exact List.nodup_reverse.mpr hbs
  | cons a as ih =>
    intro bs hbs
    cases h : bs.elem a with
    | true =>
      rw [show List.eraseDups.loop (a :: as) bs = List.eraseDups.loop as bs by
        simp only [List.eraseDups.loop]
        rw [h]]
      exact ih bs hbs
    | false =>
      rw [show List.eraseDups.loop (a :: as) bs = List.eraseDups.loop as (a :: bs) by
        simp only [List.eraseDups.loop]
        rw [h]]
      apply ih
      rw [List.nodup_cons]
      refine ⟨?_, hbs⟩
      intro hmem
      rw [List.elem_eq_true_of_mem hmem] at h
      exact absurd h (by simp)

theorem nodup_eraseDups {α : Type} [BEq α] [LawfulBEq α] (l : List α) :
    l.eraseDups.Nodup := by
  unfold List.eraseDups
  exact eraseDups_loop_nodup l [] List.nodup_nil

end NasaKG

namespace NasaKG

theorem mem_undirNbrs (g : KG) (u y : String) :
    y ∈ g.undirNbrs u ↔ stepRel g u y := by
  unfold KG.undirNbrs stepRel
  rw [List.mem_filterMap]
  constructor
  · rintro ⟨e, he, hopt⟩
    by_cases hs : e.source == u
    · rw [if_pos hs] at hopt
      have := Option.some.inj hopt
      exact ⟨e, he, Or.inl ⟨by simpa using hs, this⟩⟩
    · rw [if_neg hs] at hopt
      by_cases ht : e.target == u
      · rw [if_pos ht] at hopt
        have := Option.some.inj hopt
        exact ⟨e, he, Or.inr ⟨this, by simpa using ht⟩⟩
      · rw [if_neg ht] at hopt
        exact absurd hopt (by simp)
  · rintro ⟨e, he, hor⟩
    refine ⟨e, he, ?_⟩
    rcases hor with ⟨hs, ht⟩ | ⟨hs, ht⟩
    · rw [if_pos (by simp [hs]), ht]
    · by_cases hsu : e.source == u
      · have hsu2 : e.source = u := by simpa using hsu
        rw [if_pos hsu, ht, ← hs, hsu2]
      · rw [if_neg hsu, if_pos (by simp [ht]), hs]

theorem stepRel_symm (g : KG) (u v : String) (h : stepRel g u v) : stepRel g v u := by
  obtain ⟨e, he, hor⟩ := h
  exact ⟨e, he, hor.symm⟩

theorem ball_succ (g : KG) (a : String) (n : Nat) :
    g.ball a (n + 1) = g.ball a n ++
      (((g.ball a n).flatMap g.undirNbrs).filter
        (fun x => !(g.ball a n).contains x)).eraseDups := rfl

theorem ball_mono_succ (g : KG) (a : String) (n : Nat) (x : String)
    (h : x ∈ g.ball a n) : x ∈ g.ball a (n + 1) := by
  rw [ball_succ]
  exact List.mem_append_left _ h

theorem ball_mono (g : KG) (a : String) (m n : Nat) (hmn : m ≤ n) (x : String)
    (h : x ∈ g.ball a m) : x ∈ g.ball a n := by
  induction n with
  | zero =>
    rw [Nat.le_zero.mp hmn] at h
    exact h
  | succ k ih =>
    rcases Nat.lt_or_ge m (k + 1) with hlt | hge
    · exact ball_mono_succ g a k x (ih (Nat.lt_succ_iff.mp hlt))
    · rw [Nat.le_antisymm hmn hge] at h
      exact h

theorem nbrs_sub_ball (g : KG) (a : String) (n : Nat) (u x : String)
    (hu : u ∈ g.ball a n) (hx : x ∈ g.undirNbrs u) : x ∈ g.ball a (n + 1) := by
  rw [ball_succ]
  by_cases hin : x ∈ g.ball a n
  · exact List.mem_append_left _ hin
  · apply List.mem_append_right
    rw [mem_eraseDups, List.mem_filter]
    refine ⟨List.mem_flatMap.mpr ⟨u, hu, hx⟩, ?_⟩
    simp only [Bool.not_eq_eq_eq_not, Bool.not_true]
    cases hc : (g.ball a n).contains x with
    | false => rfl
    | true => exact absurd (List.mem_of_elem_eq_true hc) hin

theorem walk_mem_ball (g : KG) (a : String) :
    ∀ (m : Nat) (x : String), walkN g a m x → x ∈ g.ball a m := by
  intro m
  induction m with
  | zero =>
    intro x hx
    rw [show x = a from hx.symm]
    exact List.mem_singleton.mpr rfl
  | succ k ih =>
    intro x hx
    obtain ⟨w, hw, hstep⟩ := hx
    exact nbrs_sub_ball g a k w x (ih w hw) ((mem_undirNbrs g w x).mpr hstep)

theorem mem_ball_walk (g : KG) (a : String) :
    ∀ (n : Nat) (x : String), x ∈ g.ball a n → ∃ m, m ≤ n ∧ walkN g a m x := by
  intro n
  induction n with
  | zero =>
    intro x hx
    exact ⟨0, Nat.le_refl 0, (List.mem_singleton.mp hx).symm⟩
  | succ k ih =>
    intro x hx
    rw [ball_succ] at hx
    rcases List.mem_append.mp hx with hold | hnew
    · obtain ⟨m, hm, hwalk⟩ := ih x hold
      exact ⟨m, Nat.le_succ_of_le hm, hwalk⟩
    · rw [mem_eraseDups] at hnew
      obtain ⟨hfm, _⟩ := List.mem_filter.mp hnew
      obtain ⟨u, hu, hnbr⟩ := List.mem_flatMap.mp hfm
      obtain ⟨m, hm, hwalk⟩ := ih u hu
      refine ⟨m + 1, Nat.succ_le_succ hm, ?_⟩
      exact ⟨u, hwalk, (mem_undirNbrs g u x).mp hnbr⟩

end NasaKG

namespace NasaKG

theorem ball_nodup (g : KG) (a : String) : ∀ n, (g.ball a n).Nodup := by
  intro n
  induction n with
  | zero => exact List.nodup_singleton a
  | succ k ih =>
    rw [ball_succ]
    rw [List.nodup_append]
    refine ⟨ih, nodup_eraseDups _, ?_⟩
    intro x hx hx2
    rw [mem_eraseDups, List.mem_filter] at hx2
    have hcf := hx2.2
    simp only [Bool.not_eq_eq_eq_not, Bool.not_true, List.contains] at hcf
    rw [List.elem_eq_true_of_mem hx] at hcf
    exact absurd hcf (by simp)

theorem undirNbrs_sub_ends (g : KG) (u x : String) (h : x ∈ g.undirNbrs u) :
    x ∈ g.edges.flatMap (fun e => [e.source, e.target]) := by
  unfold KG.undirNbrs at h
  obtain ⟨e, he, hopt⟩ := List.mem_filterMap.mp h
  apply List.mem_flatMap.mpr
  refine ⟨e, he, ?_⟩
  by_cases hs : e.source == u
  · rw [if_pos hs] at hopt
    rw [← Option.some.inj hopt]
    simp
  · rw [if_neg hs] at hopt
    by_cases ht : e.target == u
    · rw [if_pos ht] at hopt
      rw [← Option.some.inj hopt]
      simp
    · rw [if_neg ht] at hopt
      exact absurd hopt (by simp)

theorem ball_sub_ends (g : KG) (a : String) :
    ∀ n, ∀ x ∈ g.ball a n, x ∈ a :: g.edges.flatMap (fun e => [e.source, e.target]) := by
  intro n
  induction n with
  | zero =>
    intro x hx
    rw [List.mem_singleton.mp hx]
    exact List.mem_cons_self _ _
  | succ k ih =>
    intro x hx
    rw [ball_succ] at hx
    rcases List.mem_append.mp hx with hold | hnew
    · exact ih x hold
    · rw [mem_eraseDups] at hnew
      obtain ⟨hfm, _⟩ := List.mem_filter.mp hnew
      obtain ⟨u, _, hnbr⟩ := List.mem_flatMap.mp hfm
      exact List.mem_cons_of_mem a (undirNbrs_sub_ends g u x hnbr)

theorem ends_length (g : KG) :
    (g.edges.flatMap (fun e => [e.source, e.target])).length = 2 * g.edges.length := by
  induction g.edges with
  | nil => rfl
  | cons e t ih =>
    rw [List.flatMap_cons, List.length_append, ih, List.length_cons]
    simp [Nat.mul_succ, Nat.add_comm]

theorem ball_length_le (g : KG) (a : String) (n : Nat) :
    (g.ball a n).length ≤ g.searchBound := by
  have hss : g.ball a n ⊆ a :: g.edges.flatMap (fun e => [e.source, e.target]) :=
    fun x hx => ball_sub_ends g a n x hx
  have hsub := (ball_nodup g a n).subperm hss
  have := hsub.length_le
  rw [List.length_cons, ends_length] at this
  unfold KG.searchBound
  omega

theorem ball_grow (g : KG) (a : String) :
    ∀ n, (∀ m, m < n → g.ball a (m + 1) ≠ g.ball a m) →
      n + 1 ≤ (g.ball a n).length := by
  intro n
  induction n with
  | zero =>
    intro _
    exact Nat.le_refl 1
  | succ k ih =>
    intro h
    have hk := ih (fun m hm => h m (Nat.lt_succ_of_lt hm))
    have hne := h k (Nat.lt_succ_self k)
    rw [ball_succ] at hne ⊢
    cases hrest : (((g.ball a k).flatMap g.undirNbrs).filter
        (fun x => !(g.ball a k).contains x)).eraseDups with
    | nil =>
      rw [hrest] at hne
      exact absurd (List.append_nil _) hne
    | cons y ys =>
      rw [List.length_append, List.length_cons]
      omega

theorem exists_stable (g : KG) (a : String) :
    ∃ m, m < g.searchBound ∧ g.ball a (m + 1) = g.ball a m := by
  by_contra hc
  push_neg at hc
  have hgrow := ball_grow g a g.searchBound
    (fun m hm => hc m hm)
  have hle := ball_length_le g a g.searchBound
  omega

theorem stable_after (g : KG) (a : String) (m : Nat)
    (hstab : g.ball a (m + 1) = g.ball a m) :
    ∀ j, m ≤ j → g.ball a j = g.ball a m := by
  intro j
  induction j with
  | zero =>
    intro hj
    rw [Nat.le_zero.mp hj]
  | succ k ih =>
    intro hj
    rcases Nat.lt_or_ge m (k + 1) with hlt | hge
    · have hk := ih (Nat.lt_succ_iff.mp hlt)
      show ballStep g.undirNbrs (g.ball a k) = g.ball a m
      rw [hk]
      exact hstab
    · rw [Nat.le_antisymm hj hge]

theorem firstHitAux_none (g : KG) (a b : String) :
    ∀ (fuel k0 : Nat), firstHitAux g a b fuel k0 = none →
      ∀ j, k0 ≤ j → j < k0 + fuel → b ∉ g.ball a j := by
  intro fuel
  induction fuel with
  | zero =>
    intro k0 _ j hj1 hj2
    omega
  | succ f ih =>
    intro k0 hnone j hj1 hj2
    unfold firstHitAux at hnone
    by_cases hc : (g.ball a k0).contains b
    · rw [if_pos hc] at hnone
      exact absurd hnone (by simp)
    · rw [if_neg hc] at hnone
      rcases Nat.lt_or_ge k0 j with hlt | hge
      · exact ih (k0 + 1) hnone j hlt (by omega)
      · intro hmem
        rw [Nat.le_antisymm hj1 hge] at hc
        exact hc (List.elem_eq_true_of_mem hmem)

theorem firstHitAux_some (g : KG) (a b : String) :
    ∀ (fuel k0 k : Nat), firstHitAux g a b fuel k0 = some k →
      k0 ≤ k ∧ b ∈ g.ball a k ∧ ∀ j, k0 ≤ j → j < k → b ∉ g.ball a j := by
  intro fuel
  induction fuel with
  | zero =>
    intro k0 k h
    exact absurd h (by simp [firstHitAux])
  | succ f ih =>
    intro k0 k h
    unfold firstHitAux at h
    by_cases hc : (g.ball a k0).contains b
    · rw [if_pos hc] at h
      have hk := Option.some.inj h
      subst hk
      exact ⟨Nat.le_refl _, List.mem_of_elem_eq_true hc, fun j hj1 hj2 => by omega⟩
    · rw [if_neg hc] at h
      obtain ⟨h1, h2, h3⟩ := ih (k0 + 1) k h
      refine ⟨by omega, h2, ?_⟩
      intro j hj1 hj2
      rcases Nat.lt_or_ge k0 j with hlt | hge
      · exact h3 j hlt hj2
      · intro hmem
        rw [Nat.le_antisymm hj1 hge] at hc
        exact hc (List.elem_eq_true_of_mem hmem)

theorem distOpt_none (g : KG) (a b : String) (h : g.distOpt a b = none) :
    ∀ n, b ∉ g.ball a n := by
  intro n
  have hall := firstHitAux_none g a b (g.searchBound + 1) 0 h
  rcases Nat.lt_or_ge n (g.searchBound + 1) with hlt | hge
  · exact hall n (Nat.zero_le n) (by omega)
  · obtain ⟨m, hm, hstab⟩ := exists_stable g a
    rw [stable_after g a m hstab n (by omega)]
    exact hall m (Nat.zero_le m) (by omega)

theorem distOpt_some (g : KG) (a b : String) (k : Nat) (h : g.distOpt a b = some k) :
    b ∈ g.ball a k ∧ ∀ j, j < k → b ∉ g.ball a j := by
  obtain ⟨_, h2, h3⟩ := firstHitAux_some g a b (g.searchBound + 1) 0 k h
  exact ⟨h2, fun j hj => h3 j (Nat.zero_le j) hj⟩

end NasaKG

namespace NasaKG

theorem pathBack_spec (g : KG) (a : String) :
    ∀ (n : Nat) (x : String), x ∈ g.ball a n → (∀ m, m < n → x ∉ g.ball a m) →
      (pathBack g a n x).length = n + 1 ∧ (pathBack g a n x).head? = some a ∧
        (pathBack g a n x).getLast? = some x := by
  intro n
  induction n with
  | zero =>
    intro x hx _
    have hxa : x = a := List.mem_singleton.mp hx
    refine ⟨rfl, ?_, rfl⟩
    show some x = some a
    rw [hxa]
  | succ k ih =>
    intro x hx hmin
    have hxnotk : x ∉ g.ball a k := hmin k (Nat.lt_succ_self k)
    rw [ball_succ] at hx
    rcases List.mem_append.mp hx with hold | hnew
    · exact absurd hold hxnotk
    · rw [mem_eraseDups] at hnew
      obtain ⟨hfm, _⟩ := List.mem_filter.mp hnew
      obtain ⟨u0, hu0, hnbr0⟩ := List.mem_flatMap.mp hfm
      cases hfind : (g.ball a k).find? (fun u => (g.undirNbrs u).contains x) with
      | none =>
        exfalso
        have hno := List.find?_eq_none.mp hfind u0 hu0
        exact hno (List.elem_eq_true_of_mem hnbr0)
      | some u =>
        have hu_mem : u ∈ g.ball a k := List.mem_of_find?_eq_some hfind
        have hu_pred := List.find?_some hfind
        have hu_nbr : x ∈ g.undirNbrs u := List.mem_of_elem_eq_true (by simpa using hu_pred)
        have humin : ∀ m, m < k → u ∉ g.ball a m := by
          intro m hm hmem
          exact hmin (m + 1) (Nat.succ_lt_succ hm) (nbrs_sub_ball g a m u x hmem hu_nbr)
        obtain ⟨hlen, hhead, hlast⟩ := ih u hu_mem humin
        have heq : pathBack g a (k + 1) x = pathBack g a k u ++ [x] := by
          simp only [pathBack]
          rw [hfind]
        rw [heq]
        refine ⟨?_, ?_, List.getLast?_concat _⟩
        · rw [List.length_append, hlen]
          rfl
        · rw [List.head?_append, hhead]
          rfl

end NasaKG

namespace NasaKG

/-- C6: the shortest-path endpoint answers 404 when either id is absent;
with both present and the endpoints connected in the undirected view it
returns a path whose first element is a, whose last element is b and whose
length is path_length + 1 where path_length is the minimum undirected hop
distance; with the endpoints disconnected it returns an empty path and
path_length -1. -/
theorem C6_shortest_path (g : KG) (a b : String) :
    (¬(a ∈ g.nodeIds ∧ b ∈ g.nodeIds) →
      get_shortest_path g a b = Except.error "One or both nodes not found") ∧
    ((a ∈ g.nodeIds ∧ b ∈ g.nodeIds) →
      ((∃ n, walkN g a n b) →
        ∃ (k : Nat) (res : PathResult), get_shortest_path g a b = Except.ok res ∧
          res.source = a ∧ res.target = b ∧
          res.path_length = (k : Int) ∧ res.path.length = k + 1 ∧
          (res.path.map PathNode.id).head? = some a ∧
          (res.path.map PathNode.id).getLast? = some b ∧
          walkN g a k b ∧ ∀ m, m < k → ¬walkN g a m b) ∧
      ((¬∃ n, walkN g a n b) →
        get_shortest_path g a b = Except.ok ⟨a, b, [], -1⟩)) := by
  constructor
  · intro hno
    unfold get_shortest_path
    rw [if_neg hno]
  · intro hyes
    constructor
    · rintro ⟨n, hwalk⟩
      cases hdist : g.distOpt a b with
      | none =>
        exact absurd (walk_mem_ball g a n b hwalk) (distOpt_none g a b hdist n)
      | some k =>
        obtain ⟨hmem, hmin⟩ := distOpt_some g a b k hdist
        obtain ⟨hlen, hhead, hlast⟩ := pathBack_spec g a k b hmem
          (fun m hm => hmin m hm)
        refine ⟨k, ⟨a, b, (pathBack g a k b).map g.pathNodeOf,
          ((pathBack g a k b).length : Int) - 1⟩, ?_, rfl, rfl, ?_, ?_, ?_, ?_, ?_, ?_⟩
        · unfold get_shortest_path
          rw [if_pos hyes, hdist]
        · show ((pathBack g a k b).length : Int) - 1 = (k : Int)
          rw [hlen]
          omega
        · show ((pathBack g a k b).map g.pathNodeOf).length = k + 1
          rw [List.length_map]
          exact hlen
        · show (((pathBack g a k b).map g.pathNodeOf).map PathNode.id).head? = some a
          rw [List.map_map, show List.map (PathNode.id ∘ g.pathNodeOf)
            (pathBack g a k b) = pathBack g a k b from List.map_id _]
          exact hhead
        · show (((pathBack g a k b).map g.pathNodeOf).map PathNode.id).getLast? = some b
          rw [List.map_map, show List.map (PathNode.id ∘ g.pathNodeOf)
            (pathBack g a k b) = pathBack g a k b from List.map_id _]
          exact hlast
        · obtain ⟨m, hmk, hw⟩ := mem_ball_walk g a k b hmem
          rcases Nat.lt_or_ge m k with hlt | hge
          · exact absurd (walk_mem_ball g a m b hw) (hmin m hlt)
          · rw [← Nat.le_antisymm hmk hge]
            exact hw
        · intro m hm hw
          exact hmin m hm (walk_mem_ball g a m b hw)
    · intro hnone
      cases hdist : g.distOpt a b with
      | some k =>
        exfalso
        obtain ⟨hmem, _⟩ := distOpt_some g a b k hdist
        obtain ⟨m, _, hw⟩ := mem_ball_walk g a k b hmem
        exact hnone ⟨m, hw⟩
      | none =>
        unfold get_shortest_path
        rw [if_pos hyes, hdist]

/-- Witness for C6 on the three-node line a - b - c, querying a to c. -/
theorem C6_witness :
    ("a" ∈ pathDemoGraph.nodeIds ∧ "c" ∈ pathDemoGraph.nodeIds) ∧
    (∃ n, walkN pathDemoGraph "a" n "c") ∧
    (∃ (k : Nat) (res : PathResult),
      get_shortest_path pathDemoGraph "a" "c" = Except.ok res ∧
      res.source = "a" ∧ res.target = "c" ∧
      res.path_length = (k : Int) ∧ res.path.length = k + 1 ∧
      (res.path.map PathNode.id).head? = some "a" ∧
      (res.path.map PathNode.id).getLast? = some "c" ∧
      walkN pathDemoGraph "a" k "c" ∧
      ∀ m, m < k → ¬walkN pathDemoGraph "a" m "c") := by
  have hw : walkN pathDemoGraph "a" 2 "c" :=
    ⟨"b", ⟨"a", rfl, ⟨⟨"a", "b", "r", 1, []⟩, List.mem_cons_self _ _,
      Or.inl ⟨rfl, rfl⟩⟩⟩,
     ⟨⟨"b", "c", "r", 1, []⟩, List.mem_cons_of_mem _ (List.mem_cons_self _ _),
      Or.inl ⟨rfl, rfl⟩⟩⟩
  exact ⟨⟨by decide, by decide⟩, ⟨2, hw⟩,
    ((C6_shortest_path pathDemoGraph "a" "c").2 ⟨by decide, by decide⟩).1 ⟨2, hw⟩⟩

end NasaKG
